import Mathlib

/-!
# export-cloudinary-images: a shallow embedding of `main.go`

The program walks a directory, collects the image files, converts the ones
whose path contains "png" to JPEG and deletes the originals.

Modelling conventions.

* A Go `string` is a `List Char`.  The path functions only look at the ASCII
  bytes `/` and `.`, so working on code points instead of bytes changes nothing.
* Paths are Unix paths (`os.PathSeparator = '/'`, no volume names).
* The functions of `main.go` keep their names (`readImageFiles`, `isImageFile`,
  `convertToJPG`, `downloadImagesFromCloudinary`, `main`).  The Go standard
  library functions they call (`strings.*`, `filepath.*`, `os.*`,
  `image.Decode`, `jpeg.Encode`) are modelled after their documented behaviour
  and carry the library name.
-/

namespace ExportCloudinary

/-! ## `strings` -/

/-- Go `strings.HasSuffix`: `len(s) >= len(suffix) && s[len(s)-len(suffix):] == suffix`. -/
def hasSuffix (s suffix : List Char) : Bool :=
  decide (suffix.length ≤ s.length) && (s.drop (s.length - suffix.length) == suffix)

/-- Go `strings.TrimSuffix`: drop `suffix` from the end of `s` when it is there. -/
def trimSuffix (s suffix : List Char) : List Char :=
  if hasSuffix s suffix then s.take (s.length - suffix.length) else s

/-- Go `strings.Contains`: `substr` starts at some position of `s`. -/
def stringsContains (s substr : List Char) : Bool :=
  s.tails.any (fun t => substr.isPrefixOf t)

/-- Go `unicode.ToLower` on one rune.  Besides `A`..`Z`, the only runes whose lower
case is an ASCII letter are U+0130 (to `i`) and U+212A (to `k`); every other
case mapping sends a non-ASCII rune to a non-ASCII rune and is left out, since
`isImageFile` only compares the result with ASCII suffixes. -/
def unicodeToLower (c : Char) : Char :=
  if 65 ≤ c.toNat ∧ c.toNat ≤ 90 then Char.ofNat (c.toNat + 32)
  else if c.toNat = 0x130 then 'i'
  else if c.toNat = 0x212A then 'k'
  else c

/-- Go `strings.ToLower`. -/
def toLower (s : List Char) : List Char := s.map unicodeToLower

/-! ## `path/filepath` (Unix) -/

/-- Go `os.IsPathSeparator` on Unix. -/
def isPathSeparator (c : Char) : Bool := c == '/'

/-- Loop of `filepath.Ext`, scanning from the last byte towards the first:
`rev` is what is left to scan (reversed), `acc` what has been scanned. -/
def extLoop : List Char → List Char → List Char
  | [], _ => []
  | c :: rev, acc =>
    if isPathSeparator c then []
    else if c = '.' then c :: acc
    else extLoop rev (c :: acc)

/-- Go `filepath.Ext`: the suffix beginning at the final dot in the final element
of the path, empty if there is no dot. -/
def Ext (path : List Char) : List Char := extLoop path.reverse []

/-- Go `filepath.Base`: the last element of the path, trailing separators removed
first; `.` for the empty path and `/` for a path of separators only. -/
def Base (path : List Char) : List Char :=
  if path = [] then ['.']
  else
    let stripped := path.reverse.dropWhile isPathSeparator
    let last := (stripped.takeWhile (fun c => !isPathSeparator c)).reverse
    if last = [] then ['/'] else last

/-- The elements of a path: the pieces between separators (possibly empty). -/
def splitSep : List Char → List (List Char)
  | [] => [[]]
  | c :: cs =>
    if isPathSeparator c then [] :: splitSep cs
    else
      match splitSep cs with
      | [] => [[c]]
      | e :: es => (c :: e) :: es

/-- One element of the loop of `filepath.Clean`.  `stack` holds the elements
written so far, the last one first.  Empty and `.` elements are skipped; `..`
removes the last real element, is kept at the start of a relative path and is
dropped at the start of a rooted one; anything else is appended. -/
def cleanStep (rooted : Bool) (stack : List (List Char)) (e : List Char) :
    List (List Char) :=
  if e = [] ∨ e = ['.'] then stack
  else if e = ['.', '.'] then
    match stack with
    | [] => if rooted then [] else [e]
    | top :: rest =>
      if top = ['.', '.'] then (if rooted then stack else e :: stack) else rest
  else e :: stack

/-- The elements `filepath.Clean` keeps, the last one first. -/
def cleanStack (rooted : Bool) (path : List Char) : List (List Char) :=
  (splitSep path).foldl (cleanStep rooted) []

/-- Writes the kept elements out: separated by `/`, after a leading `/` when the
path is rooted, and `.` when nothing is left of a relative path. -/
def renderPath (rooted : Bool) (stack : List (List Char)) : List Char :=
  if rooted then '/' :: List.intercalate ['/'] stack.reverse
  else if stack = [] then ['.']
  else List.intercalate ['/'] stack.reverse

/-- Whether a path starts with a separator. -/
def isRooted (path : List Char) : Bool :=
  match path with
  | [] => false
  | c :: _ => isPathSeparator c

/-- Go `filepath.Clean`: the shortest equivalent path by lexical processing.  The
library scans the bytes once; here the same rules run element by element
(`cleanStep`), and the result is written out by `renderPath`. -/
def Clean (path : List Char) : List Char :=
  if path = [] then ['.']
  else renderPath (isRooted path) (cleanStack (isRooted path) path)

/-- Go `filepath.Join`: the elements from the first non-empty one on, joined with
`/` and cleaned; the empty string when all are empty. -/
def Join (elems : List (List Char)) : List Char :=
  match elems.dropWhile (fun e => e.isEmpty) with
  | [] => []
  | rest => Clean (List.intercalate ['/'] rest)

/-- Go `filepath.Dir`: all but the last element of the path, cleaned. -/
def Dir (path : List Char) : List Char :=
  Clean (path.reverse.dropWhile (fun c => !isPathSeparator c)).reverse

/-! ## The output path of `convertToJPG` -/

/-- The file name `convertToJPG` gives the converted image (line 126):
`strings.TrimSuffix(filepath.Base(inputPath), filepath.Ext(inputPath)) + ".jpg"`. -/
def outputName (inputPath : List Char) : List Char :=
  trimSuffix (Base inputPath) (Ext inputPath) ++ ".jpg".toList

/-- The `outputPath` of `convertToJPG` (line 126). -/
def outputPathOf (inputPath outputDir : List Char) : List Char :=
  Join [outputDir, outputName inputPath]

/-! ## The file system -/

/-- What a directory entry is: a file with its bytes, or a directory. -/
inductive Node where
  | file (content : List Nat) : Node
  | dir : Node
  deriving DecidableEq, Repr

/-- The state of the file system.  The function `resolve` says which directory entry a path
string names (two strings such as `./a` and `a` may name the same entry), and
`node` what is at an entry, `none` when nothing exists there. -/
structure FileSystem where
  resolve : List Char → List Char
  node : List Char → Option Node

/-- What is at a path. -/
def FileSystem.lookup (fs : FileSystem) (path : List Char) : Option Node :=
  fs.node (fs.resolve path)

/-- Whether something exists at a path. -/
def FileSystem.pathExists (fs : FileSystem) (path : List Char) : Bool :=
  (fs.lookup path).isSome

/-- Replaces what is at the entry a path names. -/
def FileSystem.set (fs : FileSystem) (path : List Char) (n : Option Node) : FileSystem :=
  { fs with node := fun k => if k = fs.resolve path then n else fs.node k }

/-- The outcomes of the system calls of one `convertToJPG` call that the file
system state does not decide (permissions, a full disk, ...). -/
structure Faults where
  openFails : Bool
  createFails : Bool
  /-- When set, `jpeg.Encode` hits a write error after these bytes reached the file. -/
  writeFails : Option (List Nat)
  renameFails : Bool
  removeFails : Bool
  /-- The outcome of the second `os.Remove`, the one in `main` (line 63). -/
  mainRemoveFails : Bool

/-- No system call fails for an outside reason. -/
def noFaults : Faults := ⟨false, false, none, false, false, false⟩

/-- What `os.Open` gives `image.Decode` to read from. -/
inductive Handle where
  | ofFile (content : List Nat) : Handle
  /-- An open directory: every read fails (EISDIR). -/
  | ofDir : Handle
  deriving DecidableEq, Repr

/-- Whether a path ends in a separator. -/
def endsInSeparator (path : List Char) : Bool :=
  match path.getLast? with
  | some c => isPathSeparator c
  | none => false

/-- Go `os.Open`.  The empty path names nothing (ENOENT), and a path that ends in a
separator only opens a directory (ENOTDIR for a file). -/
def osOpen (faults : Faults) (fs : FileSystem) (path : List Char) : Option Handle :=
  if faults.openFails ∨ path = [] then none
  else
    match fs.lookup path with
    | none => none
    | some Node.dir => some Handle.ofDir
    | some (Node.file c) => if endsInSeparator path then none else some (Handle.ofFile c)

/-- Go `os.Create`: creates the file or truncates it; fails on a directory. -/
def osCreate (faults : Faults) (fs : FileSystem) (path : List Char) : Option FileSystem :=
  if faults.createFails ∨ path = [] then none
  else
    match fs.lookup path with
    | some Node.dir => none
    | _ => some (fs.set path (some (Node.file [])))

/-- Go `os.Rename`: the old entry must exist; renaming an entry onto itself does
nothing; a file does not replace a directory. -/
def osRename (faults : Faults) (fs : FileSystem) (oldPath newPath : List Char) :
    Option FileSystem :=
  if faults.renameFails then none
  else
    match fs.lookup oldPath with
    | none => none
    | some n =>
      if fs.resolve oldPath = fs.resolve newPath then some fs
      else
        match fs.lookup newPath with
        | some Node.dir => none
        | _ => some ((fs.set newPath (some n)).set oldPath none)

/-- Go `os.Remove`: fails when nothing exists at the path. -/
def osRemove (fails : Bool) (fs : FileSystem) (path : List Char) : Option FileSystem :=
  if fails then none
  else
    match fs.lookup path with
    | none => none
    | some _ => some (fs.set path none)

/-- Go `os.MkdirAll`: nothing to do for an existing directory, fails on a file. -/
def osMkdirAll (fails : Bool) (fs : FileSystem) (path : List Char) : Option FileSystem :=
  if fails then none
  else
    match fs.lookup path with
    | some Node.dir => some fs
    | some (Node.file _) => none
    | none => some (fs.set path (some Node.dir))

/-! ## Images -/

/-- A decoded image: its bounds and its pixel data. -/
structure Image where
  dx : Nat
  dy : Nat
  pix : List Nat
  deriving DecidableEq, Repr

/-- The codecs of the Go standard library the program links, left abstract. -/
structure Codec where
  decodePNG : List Nat → Option Image
  decodeJPEG : List Nat → Option Image
  encodeJPEG : Image → Nat → List Nat

/-- Why `image.Decode` failed. -/
inductive DecodeError where
  /-- The sentinel `image.ErrFormat`: no registered format matches the first bytes. -/
  | unknownFormat : DecodeError
  /-- The decoder of the sniffed format rejected the data. -/
  | malformed : DecodeError
  deriving DecidableEq, Repr

/-- A registered format: its name, its magic prefix and its decoder. -/
structure RegisteredFormat where
  name : List Char
  magic : List Nat
  decode : List Nat → Option Image

/-- The formats registered with package `image` when the program starts: those of
the imports of lines 7 and 8, `image/jpeg` and `image/png`, whose `init` call
`image.RegisterFormat` with these magic strings.  The file `main.go` imports no
other image package. -/
def registeredFormats (codec : Codec) : List RegisteredFormat :=
  [ ⟨"jpeg".toList, [0xFF, 0xD8], codec.decodeJPEG⟩,
    ⟨"png".toList, [0x89, 0x50, 0x4E, 0x47, 0x0D, 0x0A, 0x1A, 0x0A], codec.decodePNG⟩ ]

/-- Go `image.match`: the bytes agree with the magic, a `?` (63) matching any byte. -/
def magicMatch : List Nat → List Nat → Bool
  | [], [] => true
  | m :: ms, b :: bs => (m == b || m == 63) && magicMatch ms bs
  | _, _ => false

/-- Go `image.sniff`: the first registered format whose magic matches the bytes
peeked at the start of the data (a peek of too few bytes is an error, no match). -/
def sniff (formats : List RegisteredFormat) (content : List Nat) : Option RegisteredFormat :=
  formats.find? (fun f => decide (f.magic.length ≤ content.length) &&
    magicMatch f.magic (content.take f.magic.length))

/-- Go `image.Decode`: the image and the name of the format it was sniffed as. -/
def imageDecode (codec : Codec) (h : Handle) : Except DecodeError (Image × List Char) :=
  match h with
  | Handle.ofDir => Except.error DecodeError.unknownFormat
  | Handle.ofFile content =>
    match sniff (registeredFormats codec) content with
    | none => Except.error DecodeError.unknownFormat
    | some f =>
      match f.decode content with
      | none => Except.error DecodeError.malformed
      | some img => Except.ok (img, f.name)

/-- Go `jpeg.Encode` into the file created at `path`: an image of 65536 pixels or
more in a dimension is refused before anything is written; a write error leaves
what was written so far.  The flag says whether it returned without error. -/
def jpegEncode (codec : Codec) (faults : Faults) (fs : FileSystem) (path : List Char)
    (img : Image) (quality : Nat) : FileSystem × Bool :=
  if img.dx ≥ 65536 ∨ img.dy ≥ 65536 then (fs, false)
  else
    match faults.writeFails with
    | some written => (fs.set path (some (Node.file written)), false)
    | none => (fs.set path (some (Node.file (codec.encodeJPEG img quality))), true)

/-! ## `convertToJPG` -/

/-- The errors `convertToJPG` returns, one for each `fmt.Errorf` of its body. -/
inductive ConvError where
  | opening : ConvError
  | decoding (e : DecodeError) : ConvError
  | unsupportedFormat (format : List Char) : ConvError
  | creatingOutput : ConvError
  | encoding : ConvError
  | moving : ConvError
  | removingOriginal : ConvError
  deriving DecidableEq, Repr

/-- The library calls `convertToJPG` makes that touch the file system or the codecs. -/
inductive Call where
  | osOpen (path : List Char) : Call
  | imageDecode : Call
  | osCreate (path : List Char) : Call
  /-- The call of `jpeg.Encode`; `ok` says whether it returned without error. -/
  | jpegEncode (ok : Bool) : Call
  | osRename (oldPath newPath : List Char) : Call
  | osRemove (path : List Char) : Call
  deriving DecidableEq, Repr

/-- What a call of `convertToJPG` leaves: the returned error (`none` for `nil`),
the file system, and the calls it made, in order. -/
structure ConvResult where
  err : Option ConvError
  fs : FileSystem
  calls : List Call

/-- The format names the `switch` of line 118 accepts. -/
def validFormats : List (List Char) :=
  ["jpeg".toList, "png".toList, "gif".toList, "bmp".toList, "tiff".toList]

/-- The function `convertToJPG` of `main.go` (lines 103-156). -/
def convertToJPG (codec : Codec) (faults : Faults) (fs : FileSystem)
    (inputPath outputDir : List Char) : ConvResult :=
  match osOpen faults fs inputPath with
  | none => ⟨some ConvError.opening, fs, [Call.osOpen inputPath]⟩
  | some file =>
    match imageDecode codec file with
    | Except.error e =>
      ⟨some (ConvError.decoding e), fs, [Call.osOpen inputPath, Call.imageDecode]⟩
    | Except.ok (img, format) =>
      if format ∈ validFormats then
        let outputPath := outputPathOf inputPath outputDir
        match osCreate faults fs outputPath with
        | none =>
          ⟨some ConvError.creatingOutput, fs,
            [Call.osOpen inputPath, Call.imageDecode, Call.osCreate outputPath]⟩
        | some fs1 =>
          match jpegEncode codec faults fs1 outputPath img 90 with
          | (fs2, false) =>
            ⟨some ConvError.encoding, fs2,
              [Call.osOpen inputPath, Call.imageDecode, Call.osCreate outputPath,
                Call.jpegEncode false]⟩
          | (fs2, true) =>
            let finalOutputPath := Join [outputDir, Base outputPath]
            match osRename faults fs2 outputPath finalOutputPath with
            | none =>
              ⟨some ConvError.moving, fs2,
                [Call.osOpen inputPath, Call.imageDecode, Call.osCreate outputPath,
                  Call.jpegEncode true, Call.osRename outputPath finalOutputPath]⟩
            | some fs3 =>
              match osRemove faults.removeFails fs3 inputPath with
              | none =>
                ⟨some ConvError.removingOriginal, fs3,
                  [Call.osOpen inputPath, Call.imageDecode, Call.osCreate outputPath,
                    Call.jpegEncode true, Call.osRename outputPath finalOutputPath,
                    Call.osRemove inputPath]⟩
              | some fs4 =>
                ⟨none, fs4,
                  [Call.osOpen inputPath, Call.imageDecode, Call.osCreate outputPath,
                    Call.jpegEncode true, Call.osRename outputPath finalOutputPath,
                    Call.osRemove inputPath]⟩
      else
        ⟨some (ConvError.unsupportedFormat format), fs,
          [Call.osOpen inputPath, Call.imageDecode]⟩

/-! ## Sample data -/

/-- A codec for the examples: a PNG or JPEG is well formed when it has at least ten
bytes; the image is one pixel, the JPEG encoding two marker bytes and the quality. -/
def sampleCodec : Codec where
  decodePNG := fun b => if 10 ≤ b.length then some ⟨1, 1, [b.length]⟩ else none
  decodeJPEG := fun b => if 10 ≤ b.length then some ⟨1, 1, [b.length]⟩ else none
  encodeJPEG := fun img q => [0xFF, 0xD8, q, img.dx, img.dy]

/-- Bytes of a PNG file `sampleCodec` decodes. -/
def validPNG : List Nat := [0x89, 0x50, 0x4E, 0x47, 0x0D, 0x0A, 0x1A, 0x0A, 0, 0, 0, 13]

/-- A PNG file cut off right after its signature. -/
def truncatedPNG : List Nat := [0x89, 0x50, 0x4E, 0x47, 0x0D, 0x0A, 0x1A, 0x0A]

/-- Bytes of a JPEG file `sampleCodec` decodes. -/
def validJPEG : List Nat := [0xFF, 0xD8, 0xFF, 0xE0, 0, 16, 0x4A, 0x46, 0x49, 0x46, 0]

/-- The start of a GIF file (`GIF89a`, then the screen descriptor). -/
def validGIF : List Nat := [0x47, 0x49, 0x46, 0x38, 0x39, 0x61, 1, 0, 1, 0, 0, 0, 0]

/-- The start of a WebP file (`RIFF`, a length, `WEBPVP8 `). -/
def validWEBP : List Nat :=
  [0x52, 0x49, 0x46, 0x46, 26, 0, 0, 0, 0x57, 0x45, 0x42, 0x50, 0x56, 0x50, 0x38, 0x20]

/-- A file system given by the list of its files; a path names the entry of its
cleaned form. -/
def fsOfFiles (files : List (List Char × List Nat)) : FileSystem where
  resolve := Clean
  node := fun k => (files.lookup k).map Node.file


/-! ## `readImageFiles` -/

/-- An `error` value of the operating system, by its number. -/
abbrev Errno := Nat

mutual
/-- A directory entry as `filepath.Walk` meets it. -/
inductive Entry where
  /-- `os.Lstat` succeeds and the entry is not a directory. -/
  | file (name : List Char) : Entry
  /-- A directory whose names can be read; `entries` in the order of `readDirNames`. -/
  | dir (name : List Char) (entries : Entries) : Entry
  /-- A directory whose names cannot be read. -/
  | unreadableDir (name : List Char) (err : Errno) : Entry
  /-- An entry on which `os.Lstat` fails. -/
  | inaccessible (name : List Char) (err : Errno) : Entry
/-- The entries of a directory. -/
inductive Entries where
  | nil : Entries
  | cons (e : Entry) (rest : Entries) : Entries
end

/-- The name of an entry. -/
def Entry.name : Entry → List Char
  | Entry.file n => n
  | Entry.dir n _ => n
  | Entry.unreadableDir n _ => n
  | Entry.inaccessible n _ => n

/-- What the callback reads of an `os.FileInfo`. -/
structure FileInfo where
  name : List Char
  isDir : Bool
  deriving DecidableEq, Repr

/-- The `extensions` of `isImageFile` (line 79). -/
def extensions : List (List Char) :=
  [".jpg".toList, ".jpeg".toList, ".png".toList, ".gif".toList, ".bmp".toList,
    ".tiff".toList, ".webp".toList]

/-- The `for` loop of `isImageFile` (lines 80-85). -/
def isImageFileLoop (name : List Char) : List (List Char) → Bool
  | [] => false
  | ext :: rest => if hasSuffix (toLower name) ext then true else isImageFileLoop name rest

/-- The closure `isImageFile` of `readImageFiles` (lines 78-86). -/
def isImageFile (name : List Char) : Bool := isImageFileLoop name extensions

/-- The callback `readImageFiles` passes to `filepath.Walk` (lines 89-97), with the
captured slice `imageFiles` as state: the new slice and the returned error. -/
def walkFn (imageFiles : List (List Char)) (path : List Char) (info : FileInfo)
    (err : Option Errno) : List (List Char) × Option Errno :=
  match err with
  | some e => (imageFiles, some e)
  | none =>
    if !info.isDir && isImageFile info.name then (imageFiles ++ [path], none)
    else (imageFiles, none)

mutual
/-- Go `filepath.Walk` and its recursion `walk`, with the callback of
`readImageFiles`: the callback is called on the entry, with the error of
`os.Lstat` or of reading the directory if there is one, then the entries of a
directory are walked in order, stopping at the first error.  (The callback never
returns `filepath.SkipDir`, so nothing is skipped.) -/
def walk (path : List Char) (imageFiles : List (List Char)) :
    Entry → List (List Char) × Option Errno
  | Entry.file n => walkFn imageFiles path ⟨n, false⟩ none
  | Entry.dir n entries =>
    match walkFn imageFiles path ⟨n, true⟩ none with
    | (files, some e) => (files, some e)
    | (files, none) => walkEntries path files entries
  | Entry.unreadableDir n err => walkFn imageFiles path ⟨n, true⟩ (some err)
  | Entry.inaccessible n err => walkFn imageFiles path ⟨n, false⟩ (some err)
/-- The loop of `filepath.walk` over the names of a directory. -/
def walkEntries (path : List Char) (imageFiles : List (List Char)) :
    Entries → List (List Char) × Option Errno
  | Entries.nil => (imageFiles, none)
  | Entries.cons e rest =>
    match walk (Join [path, e.name]) imageFiles e with
    | (files, some err) => (files, some err)
    | (files, none) => walkEntries path files rest
end

/-- The function `readImageFiles` of `main.go` (lines 74-100) on the tree found at
`dir`: the slice `imageFiles` and the error of `filepath.Walk`, as returned by
`return imageFiles, err`. -/
def readImageFiles (dir : List Char) (tree : Entry) : List (List Char) × Option Errno :=
  walk dir [] tree

/-- One entry of a tree as the walk meets it: its path, its `os.FileInfo`, and the
error of accessing it, if any. -/
structure Visit where
  path : List Char
  info : FileInfo
  err : Option Errno
  deriving DecidableEq, Repr

mutual
/-- Every entry of a tree with the path `filepath.Walk` gives it, a directory
before its entries. -/
def Entry.listing (path : List Char) : Entry → List Visit
  | Entry.file n => [⟨path, ⟨n, false⟩, none⟩]
  | Entry.dir n entries => ⟨path, ⟨n, true⟩, none⟩ :: entries.listing path
  | Entry.unreadableDir n err => [⟨path, ⟨n, true⟩, some err⟩]
  | Entry.inaccessible n err => [⟨path, ⟨n, false⟩, some err⟩]
/-- The entries below a directory with their paths. -/
def Entries.listing (path : List Char) : Entries → List Visit
  | Entries.nil => []
  | Entries.cons e rest => e.listing (Join [path, e.name]) ++ rest.listing path
end

mutual
/-- Every entry of the tree can be accessed. -/
def Entry.accessible : Entry → Bool
  | Entry.file _ => true
  | Entry.dir _ entries => entries.accessible
  | Entry.unreadableDir _ _ => false
  | Entry.inaccessible _ _ => false
/-- Every entry below a directory can be accessed. -/
def Entries.accessible : Entries → Bool
  | Entries.nil => true
  | Entries.cons e rest => e.accessible && rest.accessible
end

/-- The entries of a directory as a list. -/
def Entries.toList : Entries → List Entry
  | Entries.nil => []
  | Entries.cons e rest => e :: rest.toList

/-- The entries of a directory from a list. -/
def Entries.ofList : List Entry → Entries
  | [] => Entries.nil
  | e :: rest => Entries.cons e (Entries.ofList rest)

/-- The seven suffixes the specification of the collector lists:
`.jpg, .jpeg, .png, .gif, .bmp, .tiff, .webp`. -/
def specSuffixes : List (List Char) :=
  [['.', 'j', 'p', 'g'], ['.', 'j', 'p', 'e', 'g'], ['.', 'p', 'n', 'g'], ['.', 'g', 'i', 'f'],
    ['.', 'b', 'm', 'p'], ['.', 't', 'i', 'f', 'f'], ['.', 'w', 'e', 'b', 'p']]

/-- The lower case of a character as the specification's "case-insensitive" needs
it: the library's `Char.toLower` for the letters `A`..`Z`, and the two other
characters whose lower case is an ASCII letter, U+0130 (`i`) and U+212A (`k`). -/
def specLowerCasedChar (c : Char) : Char :=
  if c = Char.ofNat 0x130 then 'i'
  else if c = Char.ofNat 0x212A then 'k'
  else c.toLower

/-- A name, lower-cased. -/
def specLowerCased (name : List Char) : List Char := name.map specLowerCasedChar

/-- The specification's image names: the name, lower-cased, ends with one of the
seven suffixes. -/
def SpecImageName (name : List Char) : Prop :=
  ∃ suffix ∈ specSuffixes, suffix <:+ specLowerCased name

instance (name : List Char) : Decidable (SpecImageName name) := by
  unfold SpecImageName; infer_instance

/-- The specification's result of the collector on some entries: the paths of the
entries that are not directories and have an image name. -/
def specImagePaths (vs : List Visit) : List (List Char) :=
  (vs.filter (fun v => !v.info.isDir && decide (SpecImageName v.info.name))).map Visit.path

/-- A path element: no separator in it. -/
def SepFree (s : List Char) : Prop := ∀ c ∈ s, isPathSeparator c = false

instance (s : List Char) : Decidable (SepFree s) := by
  unfold SepFree; infer_instance

/-- A file name: a non-empty path element other than `.` and `..`. -/
def SimpleName (n : List Char) : Prop :=
  n ≠ [] ∧ SepFree n ∧ n ≠ ['.'] ∧ n ≠ ['.', '.']

instance (n : List Char) : Decidable (SimpleName n) := by
  unfold SimpleName; infer_instance

mutual
/-- The directories of a tree are as a file system has them: every name in a
directory is a file name and no two entries of a directory share a name. -/
def Entry.wellNamed : Entry → Bool
  | Entry.file _ => true
  | Entry.dir _ entries => entries.wellNamed
  | Entry.unreadableDir _ _ => true
  | Entry.inaccessible _ _ => true
/-- The names in a directory are file names, pairwise different, and so below. -/
def Entries.wellNamed : Entries → Bool
  | Entries.nil => true
  | Entries.cons e rest =>
    decide (SimpleName e.name) && decide (e.name ∉ rest.toList.map Entry.name) &&
      e.wellNamed && rest.wellNamed
end

/-- The stacks `filepath.Clean` builds (last element first): real elements, with
`..` only at the start of a relative path. -/
def GoodStack (r : Bool) : List (List Char) → Prop
  | [] => True
  | e :: S =>
    e ≠ [] ∧ SepFree e ∧ e ≠ ['.'] ∧
      (e = ['.', '.'] → r = false ∧ (S = [] ∨ ∃ S', S = ['.', '.'] :: S')) ∧ GoodStack r S

/-- The tree `root/{a.png, sub/b.jpg, sub/sub2/c.txt}`. -/
def sampleTree : Entry :=
  Entry.dir "root".toList (Entries.ofList
    [Entry.file "a.png".toList,
     Entry.dir "sub".toList (Entries.ofList
       [Entry.file "b.jpg".toList,
        Entry.dir "sub2".toList (Entries.ofList [Entry.file "c.txt".toList])])])

/-- The tree `root/{a.png, notes.txt, sub/b.jpg, sub/dir.png/, sub/UP.JPEG,
sub/sub2/c.txt}`: besides the sample, a directory named like an image and a
file with an upper-case suffix. -/
def mixedTree : Entry :=
  Entry.dir "root".toList (Entries.ofList
    [Entry.file "a.png".toList,
     Entry.file "notes.txt".toList,
     Entry.dir "sub".toList (Entries.ofList
       [Entry.file "b.jpg".toList,
        Entry.dir "dir.png".toList (Entries.ofList []),
        Entry.file "UP.JPEG".toList,
        Entry.dir "sub2".toList (Entries.ofList [Entry.file "c.txt".toList])])])


/-! ## `main` -/

/-- What `main` prints, one constructor for each print statement. -/
inductive Event where
  | errorLoadingEnv : Event
  | errorCreatingOutputDir : Event
  | errorReadingFiles (err : Errno) : Event
  | filesToCheck (n : Nat) : Event
  | errorConverting (file : List Char) (err : ConvError) : Event
  | converted (file : List Char) : Event
  | errorRemoving : Event
  deriving DecidableEq, Repr

/-- The `for` loop of `main` (lines 54-70) from its `i`-th file on: the file system
it leaves and what it prints.  Here `faultsAt i` are the outside failures while
the `i`-th file is handled. -/
def mainLoop (codec : Codec) (faultsAt : Nat → Faults) (outputDir : List Char) :
    Nat → FileSystem → List (List Char) → FileSystem × List Event
  | _, fs, [] => (fs, [])
  | i, fs, file :: rest =>
    if stringsContains file "png".toList then
      let r := convertToJPG codec (faultsAt i) fs file outputDir
      match r.err with
      | some err =>
        let (fs', out) := mainLoop codec faultsAt outputDir (i + 1) r.fs rest
        (fs', Event.errorConverting file err :: out)
      | none =>
        match osRemove (faultsAt i).mainRemoveFails r.fs file with
        | none => (r.fs, [Event.converted file, Event.errorRemoving])
        | some fs1 =>
          let (fs', out) := mainLoop codec faultsAt outputDir (i + 1) fs1 rest
          (fs', Event.converted file :: out)
    else mainLoop codec faultsAt outputDir (i + 1) fs rest

/-- The paths `convertToJPG` was invoked on, read off what `main` printed: each
invocation prints one of the two lines of lines 59 and 61. -/
def convertedPaths : List Event → List (List Char)
  | [] => []
  | Event.errorConverting file _ :: rest => file :: convertedPaths rest
  | Event.converted file :: rest => file :: convertedPaths rest
  | _ :: rest => convertedPaths rest

/-- What surrounds a run of `main`: the codecs, the configuration and the outcomes
the file system state does not decide. -/
structure MainEnv where
  codec : Codec
  envLoadFails : Bool
  appFolder : List Char
  mkdirFails : Bool
  faultsAt : Nat → Faults

/-- The function `main` of `main.go` (lines 22-71).  The tree is what
`filepath.Walk` finds at the input directory, `fs` the file system as
`convertToJPG` sees it. -/
def main (env : MainEnv) (tree : Entry) (fs : FileSystem) : FileSystem × List Event :=
  if env.envLoadFails then (fs, [Event.errorLoadingEnv])
  else
    let dir := "./".toList ++ env.appFolder ++ "/subidas/".toList
    let outputDir := "./converted".toList
    match osMkdirAll env.mkdirFails fs outputDir with
    | none => (fs, [Event.errorCreatingOutputDir])
    | some fs1 =>
      match readImageFiles dir tree with
      | (_, some err) => (fs1, [Event.errorReadingFiles err])
      | (files, none) =>
        let (fs2, out) := mainLoop env.codec env.faultsAt outputDir 0 fs1 files
        (fs2, Event.filesToCheck files.length :: out)

/-! ## `downloadImagesFromCloudinary` -/

/-- One asset of a page of `cl.Admin.Assets`, with the outcomes of the three calls
that download it. -/
structure Asset where
  publicID : List Char
  format : List Char
  getFails : Bool
  createFails : Bool
  copyFails : Bool

/-- A page of assets and the cursor of the next one. -/
structure Page where
  assets : List Asset
  nextCursor : List Char

/-- The state of the download loop: the variables `counter` and `init`, the local
files that exist, and the files downloaded so far. -/
structure DownloadState where
  counter : Nat
  init : List Char
  existing : List (List Char)
  downloaded : List (List Char)

/-- The local file of an asset (line 188): `fmt.Sprintf("%s/%v.%v", folder, PublicID, Format)`. -/
def assetFile (folder : List Char) (a : Asset) : List Char :=
  folder ++ '/' :: a.publicID ++ '.' :: a.format

/-- The inner loop over the assets of one page (lines 187-220).  The flag is false
when a download failed and the function returned. -/
def downloadPage (folder : List Char) : List Asset → DownloadState → DownloadState × Bool
  | [], st => (st, true)
  | a :: rest, st =>
    let outputFile := assetFile folder a
    if outputFile ∈ st.existing then downloadPage folder rest st
    else if a.getFails then (st, false)
    else if a.createFails then (st, false)
    else
      let st1 := { st with existing := outputFile :: st.existing }
      if a.copyFails then (st1, false)
      else
        downloadPage folder rest
          { st1 with counter := st1.counter + 1, downloaded := st1.downloaded ++ [outputFile] }

/-- The outer loop of `downloadImagesFromCloudinary` (lines 173-225) over the
responses of the asset store, `none` for a failed request; the run is followed as
far as the given responses go.  The variable `search` is never assigned after
`search := true`. -/
def downloadLoop (folder : List Char) : List (Option Page) → DownloadState → DownloadState
  | [], st => st
  | resp :: rest, st =>
    let search := true
    if !search || st.counter ≥ 200 then st
    else
      match resp with
      | none => st
      | some page =>
        match downloadPage folder page.assets st with
        | (st1, false) => st1
        | (st1, true) => downloadLoop folder rest { st1 with init := page.nextCursor }

/-- The function `downloadImagesFromCloudinary` of `main.go` (lines 158-226), run
against a sequence of responses with the local files `existing`. -/
def downloadImagesFromCloudinary (configFails : Bool) (folder : List Char)
    (responses : List (Option Page)) (existing : List (List Char)) : DownloadState :=
  if configFails then ⟨0, [], existing, []⟩
  else downloadLoop folder responses ⟨0, [], existing, []⟩


/-! ## Auxiliary definitions for the proofs -/

/-- The ways a call of `convertToJPG` can go, one for each `return` of its body,
with what the calls before it answered. -/
inductive ConvOutcome (codec : Codec) (faults : Faults) (fs : FileSystem)
    (inputPath outputDir : List Char) : ConvResult → Prop where
  | opening (h : osOpen faults fs inputPath = none) :
    ConvOutcome codec faults fs inputPath outputDir
      ⟨some ConvError.opening, fs, [Call.osOpen inputPath]⟩
  | decoding (file : Handle) (e : DecodeError)
    (h1 : osOpen faults fs inputPath = some file)
    (h2 : imageDecode codec file = Except.error e) :
    ConvOutcome codec faults fs inputPath outputDir
      ⟨some (ConvError.decoding e), fs, [Call.osOpen inputPath, Call.imageDecode]⟩
  | unsupported (c : List Nat) (img : Image) (fmt : List Char)
    (h1 : osOpen faults fs inputPath = some (Handle.ofFile c))
    (h2 : imageDecode codec (Handle.ofFile c) = Except.ok (img, fmt))
    (h3 : fmt ∉ validFormats) :
    ConvOutcome codec faults fs inputPath outputDir
      ⟨some (ConvError.unsupportedFormat fmt), fs, [Call.osOpen inputPath, Call.imageDecode]⟩
  | creating (c : List Nat) (img : Image) (fmt : List Char)
    (h1 : osOpen faults fs inputPath = some (Handle.ofFile c))
    (h2 : imageDecode codec (Handle.ofFile c) = Except.ok (img, fmt))
    (h3 : fmt ∈ validFormats)
    (h4 : osCreate faults fs (outputPathOf inputPath outputDir) = none) :
    ConvOutcome codec faults fs inputPath outputDir
      ⟨some ConvError.creatingOutput, fs,
        [Call.osOpen inputPath, Call.imageDecode,
          Call.osCreate (outputPathOf inputPath outputDir)]⟩
  | encoding (c : List Nat) (img : Image) (fmt : List Char) (fs1 fs2 : FileSystem)
    (h1 : osOpen faults fs inputPath = some (Handle.ofFile c))
    (h2 : imageDecode codec (Handle.ofFile c) = Except.ok (img, fmt))
    (h3 : fmt ∈ validFormats)
    (h4 : osCreate faults fs (outputPathOf inputPath outputDir) = some fs1)
    (h5 : jpegEncode codec faults fs1 (outputPathOf inputPath outputDir) img 90 = (fs2, false)) :
    ConvOutcome codec faults fs inputPath outputDir
      ⟨some ConvError.encoding, fs2,
        [Call.osOpen inputPath, Call.imageDecode,
          Call.osCreate (outputPathOf inputPath outputDir), Call.jpegEncode false]⟩
  | moving (c : List Nat) (img : Image) (fmt : List Char) (fs1 fs2 : FileSystem)
    (h1 : osOpen faults fs inputPath = some (Handle.ofFile c))
    (h2 : imageDecode codec (Handle.ofFile c) = Except.ok (img, fmt))
    (h3 : fmt ∈ validFormats)
    (h4 : osCreate faults fs (outputPathOf inputPath outputDir) = some fs1)
    (h5 : jpegEncode codec faults fs1 (outputPathOf inputPath outputDir) img 90 = (fs2, true))
    (h6 : osRename faults fs2 (outputPathOf inputPath outputDir)
      (Join [outputDir, Base (outputPathOf inputPath outputDir)]) = none) :
    ConvOutcome codec faults fs inputPath outputDir
      ⟨some ConvError.moving, fs2,
        [Call.osOpen inputPath, Call.imageDecode,
          Call.osCreate (outputPathOf inputPath outputDir), Call.jpegEncode true,
          Call.osRename (outputPathOf inputPath outputDir)
            (Join [outputDir, Base (outputPathOf inputPath outputDir)])]⟩
  | removing (c : List Nat) (img : Image) (fmt : List Char) (fs1 fs2 fs3 : FileSystem)
    (h1 : osOpen faults fs inputPath = some (Handle.ofFile c))
    (h2 : imageDecode codec (Handle.ofFile c) = Except.ok (img, fmt))
    (h3 : fmt ∈ validFormats)
    (h4 : osCreate faults fs (outputPathOf inputPath outputDir) = some fs1)
    (h5 : jpegEncode codec faults fs1 (outputPathOf inputPath outputDir) img 90 = (fs2, true))
    (h6 : osRename faults fs2 (outputPathOf inputPath outputDir)
      (Join [outputDir, Base (outputPathOf inputPath outputDir)]) = some fs3)
    (h7 : osRemove faults.removeFails fs3 inputPath = none) :
    ConvOutcome codec faults fs inputPath outputDir
      ⟨some ConvError.removingOriginal, fs3,
        [Call.osOpen inputPath, Call.imageDecode,
          Call.osCreate (outputPathOf inputPath outputDir), Call.jpegEncode true,
          Call.osRename (outputPathOf inputPath outputDir)
            (Join [outputDir, Base (outputPathOf inputPath outputDir)]),
          Call.osRemove inputPath]⟩
  | done (c : List Nat) (img : Image) (fmt : List Char) (fs1 fs2 fs3 fs4 : FileSystem)
    (h1 : osOpen faults fs inputPath = some (Handle.ofFile c))
    (h2 : imageDecode codec (Handle.ofFile c) = Except.ok (img, fmt))
    (h3 : fmt ∈ validFormats)
    (h4 : osCreate faults fs (outputPathOf inputPath outputDir) = some fs1)
    (h5 : jpegEncode codec faults fs1 (outputPathOf inputPath outputDir) img 90 = (fs2, true))
    (h6 : osRename faults fs2 (outputPathOf inputPath outputDir)
      (Join [outputDir, Base (outputPathOf inputPath outputDir)]) = some fs3)
    (h7 : osRemove faults.removeFails fs3 inputPath = some fs4) :
    ConvOutcome codec faults fs inputPath outputDir
      ⟨none, fs4,
        [Call.osOpen inputPath, Call.imageDecode,
          Call.osCreate (outputPathOf inputPath outputDir), Call.jpegEncode true,
          Call.osRename (outputPathOf inputPath outputDir)
            (Join [outputDir, Base (outputPathOf inputPath outputDir)]),
          Call.osRemove inputPath]⟩

/-- Whether the walk collects an entry. -/
def collects (v : Visit) : Bool := !v.info.isDir && isImageFile v.info.name

/-- The walk over entries laid out in order: stop at the first error. -/
def collect (acc : List (List Char)) : List Visit → List (List Char) × Option Errno
  | [] => (acc, none)
  | v :: vs =>
    match v.err with
    | some e => (acc, some e)
    | none => collect (if collects v then acc ++ [v.path] else acc) vs

/-- The entries met before the first one that cannot be accessed. -/
def beforeFailure (vs : List Visit) : List Visit := vs.takeWhile (fun v => v.err.isNone)

/-- The error of the first entry that cannot be accessed. -/
def firstFailure (vs : List Visit) : Option Errno :=
  (vs.find? (fun v => v.err.isSome)).bind Visit.err

/-- Where the entries of a directory at path `D` are put: below the stack `S`. -/
def Anchored (r : Bool) (S : List (List Char)) (D : List Char) : Prop :=
  ∀ n, SimpleName n → Join [D, n] = renderPath r (n :: S)

/-! ## Sample file systems -/

/-- Files `root/photo.png` (a valid PNG) and `root/broken.png` (a truncated one). -/
def photoFS : FileSystem :=
  fsOfFiles [("root/photo.png".toList, validPNG), ("root/broken.png".toList, truncatedPNG)]

/-- A JPEG that already lies in the output directory under the name `photo.jpg`. -/
def convertedFS : FileSystem :=
  fsOfFiles [("converted/photo.jpg".toList, validJPEG)]

/-- A WebP file. -/
def webpFS : FileSystem := fsOfFiles [("root/anim.webp".toList, validWEBP)]

/-- A valid JPEG under a name that contains "png". -/
def backupFS : FileSystem := fsOfFiles [("root/png_backup.jpg".toList, validJPEG)]

/-- A truncated PNG, a GIF under a name that contains "png", and a valid PNG. -/
def pngNamedGifFS : FileSystem :=
  fsOfFiles [("root/broken.png".toList, truncatedPNG), ("root/png_anim.gif".toList, validGIF),
    ("root/photo.png".toList, validPNG)]

/-- The start of a BMP file (`BM`, then the file header). -/
def validBMP : List Nat := [0x42, 0x4D, 70, 0, 0, 0, 0, 0, 0, 0, 54, 0, 0, 0]

/-- The start of a little-endian TIFF file (`II*`, then the offset of the directory). -/
def validTIFF : List Nat := [0x49, 0x49, 0x2A, 0x00, 8, 0, 0, 0, 1, 0, 0, 1]

/-- One valid file of each of the formats `gif`, `bmp` and `tiff`. -/
def otherFormatsFS : FileSystem :=
  fsOfFiles [("root/anim.gif".toList, validGIF), ("root/scan.bmp".toList, validBMP),
    ("root/scan.tiff".toList, validTIFF)]

/-- The input directory of `main` with a valid `a.png` and a truncated `b.png`. -/
def batchTree : Entry :=
  Entry.dir "subidas".toList
    (Entries.ofList [Entry.file "a.png".toList, Entry.file "b.png".toList])

/-- The files of `batchTree` for the application folder `app`. -/
def batchFS : FileSystem :=
  fsOfFiles [("app/subidas/a.png".toList, validPNG), ("app/subidas/b.png".toList, truncatedPNG)]

/-- A run of `main` in which nothing fails for an outside reason. -/
def batchEnv : MainEnv := ⟨sampleCodec, false, "app".toList, false, fun _ => noFaults⟩

/-- The tree `root/{a.png, secret/}` where the directory `secret` cannot be read
(error 13, EACCES). -/
def deniedTree : Entry :=
  Entry.dir "root".toList
    (Entries.ofList [Entry.file "a.png".toList, Entry.unreadableDir "secret".toList 13])

/-! ## A sample asset store -/

/-- The `n`-th asset of the sample store, with the public id `x…x` (`n` times);
its download does not fail. -/
def numberedAsset (n : Nat) : Asset := ⟨List.replicate n 'x', "png".toList, false, false, false⟩

/-- The page of the five assets from the `start`-th on. -/
def numberedPage (start : Nat) : Page := ⟨(List.range' start 5).map numberedAsset, []⟩

/-- The responses for `p` pages in a row, from the `start`-th asset on. -/
def pagesFrom (start : Nat) : Nat → List (Option Page)
  | 0 => []
  | p + 1 => some (numberedPage start) :: pagesFrom (start + 5) p

/-- Forty-one pages of five assets each. -/
def overshootResponses : List (Option Page) := pagesFrom 0 41

/-- The local files before the run: the file of the very first asset. -/
def overshootExisting : List (List Char) := [assetFile "imgs".toList (numberedAsset 0)]

/-- Every local file is the file of an asset before the `m`-th. -/
def KnownBelow (folder : List Char) (m : Nat) (st : DownloadState) : Prop :=
  ∀ f ∈ st.existing, ∃ j, j < m ∧ f = assetFile folder (numberedAsset j)

/-- What the download loop keeps true of its state, given the local files `initial`
of the start: the counter counts the downloaded files, the initial files are
still there, and none of them was downloaded. -/
def DownloadInv (initial : List (List Char)) (st : DownloadState) : Prop :=
  st.counter = st.downloaded.length ∧ (∀ f ∈ initial, f ∈ st.existing) ∧
    ∀ f ∈ st.downloaded, f ∉ initial

/-! ## Lemmas on strings and paths -/

theorem hasSuffix_append (a b : List Char) : hasSuffix (a ++ b) b = true := by
  simp [hasSuffix]

theorem trimSuffix_append (a b : List Char) : trimSuffix (a ++ b) b = a := by
  simp [trimSuffix, hasSuffix_append]

theorem splitSep_sepFree (s : List Char) (h : SepFree s) : splitSep s = [s] := by
  induction s with
  | nil => rfl
  | cons c cs ih =>
    have hc : isPathSeparator c = false := h c (List.mem_cons_self _ _)
    have hcs : SepFree cs := fun d hd => h d (List.mem_cons_of_mem _ hd)
    simp [splitSep, hc, ih hcs]

theorem splitSep_ne_nil (s : List Char) : splitSep s ≠ [] := by
  induction s with
  | nil => simp [splitSep]
  | cons c cs ih =>
    unfold splitSep
    split
    · simp
    · split <;> simp

theorem splitSep_cons_sep (c : Char) (cs : List Char) (hc : isPathSeparator c = true) :
    splitSep (c :: cs) = [] :: splitSep cs := by
  simp [splitSep, hc]

theorem splitSep_cons_of_eq (c : Char) (cs e : List Char) (es : List (List Char))
    (hc : isPathSeparator c = false) (hs : splitSep cs = e :: es) :
    splitSep (c :: cs) = (c :: e) :: es := by
  simp [splitSep, hc, hs]

theorem splitSep_append_sep (a b : List Char) :
    splitSep (a ++ '/' :: b) = splitSep a ++ splitSep b := by
  induction a with
  | nil => simp [splitSep, isPathSeparator]
  | cons c cs ih =>
    by_cases hc : isPathSeparator c = true
    · rw [List.cons_append, splitSep_cons_sep _ _ hc, splitSep_cons_sep _ _ hc, ih]
      rfl
    · simp only [Bool.not_eq_true] at hc
      cases hs : splitSep cs with
      | nil => exact absurd hs (splitSep_ne_nil cs)
      | cons e es =>
        rw [List.cons_append, splitSep_cons_of_eq c _ e (es ++ splitSep b) hc (by rw [ih, hs]; rfl),
          splitSep_cons_of_eq c cs e es hc hs]
        rfl

theorem cleanStep_simple (r : Bool) (S : List (List Char)) (n : List Char)
    (h : SimpleName n) : cleanStep r S n = n :: S := by
  obtain ⟨h1, _, h3, h4⟩ := h
  simp [cleanStep, h1, h3, h4]

theorem cleanStack_append_name (r : Bool) (dir n : List Char) (h : SimpleName n) :
    cleanStack r (dir ++ '/' :: n) = n :: cleanStack r dir := by
  unfold cleanStack
  rw [splitSep_append_sep, splitSep_sepFree n h.2.1, List.foldl_append]
  simp [cleanStep_simple r _ n h]

theorem isRooted_append (dir x : List Char) (h : dir ≠ []) :
    isRooted (dir ++ x) = isRooted dir := by
  cases dir with
  | nil => exact absurd rfl h
  | cons c cs => rfl

theorem simpleName_not_rooted (n : List Char) (h : SimpleName n) : isRooted n = false := by
  cases n with
  | nil => rfl
  | cons c cs => exact h.2.1 c (List.mem_cons_self _ _)

theorem intercalate_snoc (sep : List Char) (x : List Char) (xs : List (List Char))
    (n : List Char) :
    List.intercalate sep (x :: xs ++ [n]) = List.intercalate sep (x :: xs) ++ sep ++ n := by
  induction xs generalizing x with
  | nil => simp [List.intercalate]
  | cons y ys ih =>
    have := ih y
    simp only [List.intercalate, List.cons_append, List.intersperse_cons₂, List.flatten_cons] at this ⊢
    rw [this]
    simp

theorem renderPath_cons (r : Bool) (n : List Char) (S : List (List Char)) :
    renderPath r (n :: S) =
      if S = [] then (if r then '/' :: n else n) else renderPath r S ++ '/' :: n := by
  cases S with
  | nil => cases r <;> simp [renderPath, List.intercalate]
  | cons e S =>
    have hne : (e :: S).reverse ≠ [] := by simp
    obtain ⟨x, xs, hx⟩ := List.exists_cons_of_ne_nil hne
    have h := intercalate_snoc ['/'] x xs n
    cases r
    · simp only [renderPath, List.reverse_cons (a := n), hx, h]
      simp
    · simp only [renderPath, List.reverse_cons (a := n), hx, h]
      simp

theorem Clean_simple (n : List Char) (h : SimpleName n) : Clean n = n := by
  have h1 := h.1
  simp [Clean, h1, simpleName_not_rooted n h, cleanStack, splitSep_sepFree n h.2.1,
    cleanStep_simple _ _ n h, renderPath, List.intercalate]

theorem Clean_append_name (dir n : List Char) (hd : dir ≠ []) (h : SimpleName n) :
    Clean (dir ++ '/' :: n) = renderPath (isRooted dir) (n :: cleanStack (isRooted dir) dir) := by
  have hne : dir ++ '/' :: n ≠ [] := by simp
  simp only [Clean, hne, if_false, isRooted_append dir _ hd, cleanStack_append_name _ dir n h]

theorem Join_pair (dir n : List Char) (hd : dir ≠ []) :
    Join [dir, n] = Clean (dir ++ '/' :: n) := by
  cases dir with
  | nil => exact absurd rfl hd
  | cons c cs => simp [Join, List.intercalate]

theorem Join_nil_pair (n : List Char) (hn : n ≠ []) : Join [[], n] = Clean n := by
  cases n with
  | nil => exact absurd rfl hn
  | cons c cs => simp [Join, List.intercalate]


theorem takeWhile_append_sep (n rest : List Char)
    (h : ∀ c ∈ n, isPathSeparator c = false) :
    (n ++ '/' :: rest).takeWhile (fun c => !isPathSeparator c) = n := by
  induction n with
  | nil => simp [isPathSeparator]
  | cons c cs ih =>
    have hc := h c (List.mem_cons_self _ _)
    simp [hc, ih (fun d hd => h d (List.mem_cons_of_mem _ hd))]

theorem takeWhile_all (n : List Char) (h : ∀ c ∈ n, isPathSeparator c = false) :
    n.takeWhile (fun c => !isPathSeparator c) = n := by
  induction n with
  | nil => rfl
  | cons c cs ih =>
    have hc := h c (List.mem_cons_self _ _)
    simp [hc, ih (fun d hd => h d (List.mem_cons_of_mem _ hd))]

theorem dropWhile_sep_of_head (n : List Char) (hn : n ≠ [])
    (h : ∀ c ∈ n, isPathSeparator c = false) (rest : List Char) :
    (n ++ rest).dropWhile isPathSeparator = n ++ rest := by
  cases n with
  | nil => exact absurd rfl hn
  | cons c cs => simp [h c (List.mem_cons_self _ _)]

theorem dropWhile_notsep_append (n rest : List Char)
    (h : ∀ c ∈ n, isPathSeparator c = false) :
    (n ++ '/' :: rest).dropWhile (fun c => !isPathSeparator c) = '/' :: rest := by
  induction n with
  | nil => simp [isPathSeparator]
  | cons c cs ih =>
    have hc := h c (List.mem_cons_self _ _)
    simp [hc, ih (fun d hd => h d (List.mem_cons_of_mem _ hd))]

theorem dropWhile_notsep_all (n : List Char) (h : ∀ c ∈ n, isPathSeparator c = false) :
    n.dropWhile (fun c => !isPathSeparator c) = [] := by
  induction n with
  | nil => rfl
  | cons c cs ih =>
    have hc := h c (List.mem_cons_self _ _)
    simp [hc, ih (fun d hd => h d (List.mem_cons_of_mem _ hd))]

theorem sepFree_reverse (n : List Char) (h : SepFree n) :
    ∀ c ∈ n.reverse, isPathSeparator c = false :=
  fun c hc => h c (List.mem_reverse.mp hc)

theorem Base_append_name (pre n : List Char) (hn : n ≠ []) (h : SepFree n) :
    Base (pre ++ '/' :: n) = n := by
  have hne : pre ++ '/' :: n ≠ [] := by simp
  have hrev : (pre ++ '/' :: n).reverse = n.reverse ++ '/' :: pre.reverse := by simp
  have hn' : n.reverse ≠ [] := by simpa using hn
  simp only [Base, hne, if_false, hrev,
    dropWhile_sep_of_head n.reverse hn' (sepFree_reverse n h),
    takeWhile_append_sep n.reverse _ (sepFree_reverse n h), List.reverse_reverse, hn]

theorem Base_name (n : List Char) (hn : n ≠ []) (h : SepFree n) : Base n = n := by
  have hn' : n.reverse ≠ [] := by simpa using hn
  have hd := dropWhile_sep_of_head n.reverse hn' (sepFree_reverse n h) []
  simp only [List.append_nil] at hd
  simp only [Base, hn, if_false, hd, takeWhile_all n.reverse (sepFree_reverse n h),
    List.reverse_reverse]

theorem Dir_append_name (pre n : List Char) (h : SepFree n) :
    Dir (pre ++ '/' :: n) = Clean (pre ++ ['/']) := by
  have hrev : (pre ++ '/' :: n).reverse = n.reverse ++ '/' :: pre.reverse := by simp
  simp [Dir, hrev, dropWhile_notsep_append n.reverse _ (sepFree_reverse n h)]

theorem Dir_name (n : List Char) (h : SepFree n) : Dir n = ['.'] := by
  simp [Dir, dropWhile_notsep_all n.reverse (sepFree_reverse n h), Clean]


theorem splitSep_all_sepFree (s : List Char) : ∀ e ∈ splitSep s, SepFree e := by
  induction s with
  | nil =>
    intro e he
    simp [splitSep] at he
    subst he
    intro c hc
    simp at hc
  | cons c cs ih =>
    by_cases hc : isPathSeparator c = true
    · rw [splitSep_cons_sep _ _ hc]
      intro e he
      rcases List.mem_cons.mp he with h | h
      · subst h
        intro d hd
        simp at hd
      · exact ih e h
    · simp only [Bool.not_eq_true] at hc
      cases hs : splitSep cs with
      | nil => exact absurd hs (splitSep_ne_nil cs)
      | cons e0 es =>
        rw [splitSep_cons_of_eq c cs e0 es hc hs]
        intro e he
        rcases List.mem_cons.mp he with h | h
        · subst h
          intro d hd
          rcases List.mem_cons.mp hd with h' | h'
          · subst h'
            exact hc
          · exact ih e0 (by rw [hs]; exact List.mem_cons_self _ _) d h'
        · exact ih e (by rw [hs]; exact List.mem_cons_of_mem _ h)

theorem goodStack_cleanStep (r : Bool) (S : List (List Char)) (e : List Char)
    (hS : GoodStack r S) (he : SepFree e) : GoodStack r (cleanStep r S e) := by
  unfold cleanStep
  split
  · exact hS
  · rename_i h1
    have hne : e ≠ [] := fun h => h1 (Or.inl h)
    have hdot : e ≠ ['.'] := fun h => h1 (Or.inr h)
    split
    · rename_i h2
      cases S with
      | nil =>
        cases r
        · simp only [Bool.false_eq_true, if_false]
          exact ⟨hne, he, hdot, fun _ => ⟨rfl, Or.inl rfl⟩, trivial⟩
        · simp only [if_true]
          trivial
      | cons top rest =>
        simp only
        split
        · rename_i h3
          cases r
          · simp only [Bool.false_eq_true, if_false]
            exact ⟨hne, he, hdot, fun _ => ⟨rfl, Or.inr ⟨rest, by rw [h3]⟩⟩, hS⟩
          · simp only [if_true]
            exact hS
        · exact hS.2.2.2.2
    · rename_i h2
      exact ⟨hne, he, hdot, fun h => absurd h h2, hS⟩

theorem goodStack_foldl (r : Bool) (L : List (List Char)) (S : List (List Char))
    (hS : GoodStack r S) (hL : ∀ e ∈ L, SepFree e) :
    GoodStack r (L.foldl (cleanStep r) S) := by
  induction L generalizing S with
  | nil => exact hS
  | cons e L ih =>
    exact ih _ (goodStack_cleanStep r S e hS (hL e (List.mem_cons_self _ _)))
      (fun x hx => hL x (List.mem_cons_of_mem _ hx))

theorem goodStack_cleanStack (r : Bool) (path : List Char) : GoodStack r (cleanStack r path) :=
  goodStack_foldl r _ [] trivial (splitSep_all_sepFree path)

theorem cleanStep_repush (r : Bool) (e : List Char) (S : List (List Char))
    (h : GoodStack r (e :: S)) : cleanStep r S e = e :: S := by
  obtain ⟨h1, _, h3, h4, _⟩ := h
  unfold cleanStep
  rw [if_neg (by simp [h1, h3])]
  by_cases hdd : e = ['.', '.']
  · obtain ⟨hr, hS⟩ := h4 hdd
    rw [if_pos hdd]
    rcases hS with hS | ⟨S', hS⟩
    · subst hS; simp [hr]
    · subst hS; simp [hr]
  · rw [if_neg hdd]

theorem foldl_repush (r : Bool) (S : List (List Char)) (h : GoodStack r S) :
    S.reverse.foldl (cleanStep r) [] = S := by
  induction S with
  | nil => rfl
  | cons e S ih =>
    rw [List.reverse_cons, List.foldl_append, ih h.2.2.2.2]
    simp [cleanStep_repush r e S h]

theorem goodStack_sepFree (r : Bool) (S : List (List Char)) (h : GoodStack r S) :
    ∀ e ∈ S, e ≠ [] ∧ SepFree e := by
  induction S with
  | nil => intro e he; simp at he
  | cons x S ih =>
    intro e he
    rcases List.mem_cons.mp he with h' | h'
    · subst h'; exact ⟨h.1, h.2.1⟩
    · exact ih h.2.2.2.2 e h'

theorem splitSep_intercalate (x : List Char) (xs : List (List Char))
    (h : ∀ e ∈ x :: xs, SepFree e) :
    splitSep (List.intercalate ['/'] (x :: xs)) = x :: xs := by
  induction xs generalizing x with
  | nil =>
    simp only [List.intercalate, List.intersperse_single, List.flatten_cons, List.flatten_nil,
      List.append_nil]
    exact splitSep_sepFree x (h x (List.mem_cons_self _ _))
  | cons y ys ih =>
    have hy := ih y (fun e he => h e (List.mem_cons_of_mem _ he))
    have hx := splitSep_sepFree x (h x (List.mem_cons_self _ _))
    have : List.intercalate ['/'] (x :: y :: ys) = x ++ '/' :: List.intercalate ['/'] (y :: ys) := by
      simp [List.intercalate]
    rw [this, splitSep_append_sep, hx, hy]
    rfl


theorem cleanStep_nil (r : Bool) (S : List (List Char)) : cleanStep r S [] = S := by
  simp [cleanStep]

theorem Clean_render_sep (r : Bool) (S : List (List Char)) (h : GoodStack r S)
    (hS : S ≠ []) : Clean (renderPath r S ++ ['/']) = renderPath r S := by
  have hne : S.reverse ≠ [] := by simpa using hS
  obtain ⟨x, xs, hx⟩ := List.exists_cons_of_ne_nil hne
  have hall : ∀ e ∈ x :: xs, SepFree e := by
    intro e he
    rw [← hx] at he
    exact (goodStack_sepFree r S h e (List.mem_reverse.mp he)).2
  have hxne : x ≠ [] := by
    have : x ∈ S := List.mem_reverse.mp (by rw [hx]; exact List.mem_cons_self _ _)
    exact (goodStack_sepFree r S h x this).1
  have hsplit := splitSep_intercalate x xs hall
  have hfold : (x :: xs).foldl (cleanStep r) [] = S := by
    rw [← hx]; exact foldl_repush r S h
  cases r with
  | true =>
    have hP : renderPath true S ++ ['/'] = [] ++ '/' :: (List.intercalate ['/'] (x :: xs) ++ '/' :: []) := by
      simp [renderPath, hx]
    have hstack : cleanStack true (renderPath true S ++ ['/']) = S := by
      unfold cleanStack
      rw [hP, splitSep_append_sep, splitSep_append_sep, hsplit]
      simp only [splitSep, List.foldl_append, List.foldl_cons, List.foldl_nil, cleanStep_nil]
      exact hfold
    have hroot : isRooted (renderPath true S ++ ['/']) = true := by
      simp [renderPath, isRooted, isPathSeparator]
    have hne' : renderPath true S ++ ['/'] ≠ [] := by simp
    simp only [Clean, hne', if_false, hroot, hstack]
  | false =>
    have hP : renderPath false S ++ ['/'] = List.intercalate ['/'] (x :: xs) ++ '/' :: [] := by
      simp [renderPath, hS, hx]
    have hstack : cleanStack false (renderPath false S ++ ['/']) = S := by
      unfold cleanStack
      rw [hP, splitSep_append_sep, hsplit]
      simp only [splitSep, List.foldl_append, List.foldl_cons, List.foldl_nil, cleanStep_nil]
      exact hfold
    have hroot : isRooted (renderPath false S ++ ['/']) = false := by
      rw [hP]
      obtain ⟨c, cs, hc⟩ := List.exists_cons_of_ne_nil hxne
      have hsep : isPathSeparator c = false :=
        hall x (List.mem_cons_self _ _) c (by rw [hc]; exact List.mem_cons_self _ _)
      cases xs with
      | nil => simp [List.intercalate, hc, isRooted, hsep]
      | cons y ys => simp [List.intercalate, hc, isRooted, hsep]
    have hne' : renderPath false S ++ ['/'] ≠ [] := by simp
    simp only [Clean, hne', if_false, hroot, hstack]

theorem Clean_root : Clean ['/'] = ['/'] := by decide

theorem Clean_eq_render (dir : List Char) (hd : dir ≠ []) :
    Clean dir = renderPath (isRooted dir) (cleanStack (isRooted dir) dir) := by
  simp [Clean, hd]

/-- Joining a directory with a file name: the result ends with the name, has the
name as base and the cleaned directory as parent. -/
theorem Join_name (dir n : List Char) (h : SimpleName n) :
    Base (Join [dir, n]) = n ∧ Dir (Join [dir, n]) = Clean dir ∧
      ∃ pre, Join [dir, n] = pre ++ n := by
  have hn := h.1
  have hsf := h.2.1
  by_cases hd : dir = []
  · subst hd
    rw [Join_nil_pair n hn, Clean_simple n h]
    exact ⟨Base_name n hn hsf, by rw [Dir_name n hsf]; rfl, [], rfl⟩
  · rw [Join_pair dir n hd, Clean_append_name dir n hd h, renderPath_cons, Clean_eq_render dir hd]
    generalize hS : cleanStack (isRooted dir) dir = S
    have hgood : GoodStack (isRooted dir) S := hS ▸ goodStack_cleanStack _ dir
    by_cases hnil : S = []
    · subst hnil
      simp only [if_true]
      cases hr : isRooted dir with
      | true =>
        simp only [if_true]
        refine ⟨Base_append_name [] n hn hsf, ?_, ['/'], rfl⟩
        have := Dir_append_name [] n hsf
        simp only [List.nil_append] at this
        rw [this, Clean_root]
        rfl
      | false =>
        simp only [Bool.false_eq_true, if_false]
        exact ⟨Base_name n hn hsf, by rw [Dir_name n hsf]; rfl, [], rfl⟩
    · simp only [hnil, if_false]
      refine ⟨Base_append_name _ n hn hsf, ?_, renderPath (isRooted dir) S ++ ['/'], by simp⟩
      rw [Dir_append_name _ n hsf, Clean_render_sep _ S hgood hnil]


theorem extLoop_spec (l rest acc : List Char)
    (hl : ∀ c ∈ l, isPathSeparator c = false)
    (hrest : rest = [] ∨ ∃ c r, rest = c :: r ∧ isPathSeparator c = true) :
    (extLoop (l ++ rest) acc = [] ∧ '.' ∉ l) ∨
      ∃ l1 l2, l = l1 ++ '.' :: l2 ∧ '.' ∉ l1 ∧
        extLoop (l ++ rest) acc = '.' :: (l1.reverse ++ acc) := by
  induction l generalizing acc with
  | nil =>
    left
    rcases hrest with h | ⟨c, r, h, hc⟩
    · subst h; simp [extLoop]
    · subst h; simp [extLoop, hc]
  | cons d l ih =>
    have hd := hl d (List.mem_cons_self _ _)
    have hl' : ∀ c ∈ l, isPathSeparator c = false := fun c hc => hl c (List.mem_cons_of_mem _ hc)
    by_cases hdot : d = '.'
    · right
      refine ⟨[], l, by simp [hdot], by simp, ?_⟩
      subst hdot
      simp [extLoop, hd]
    · have hstep : extLoop (d :: l ++ rest) acc = extLoop (l ++ rest) (d :: acc) := by
        simp [extLoop, hd, hdot]
      rcases ih (d :: acc) hl' with ⟨h1, h2⟩ | ⟨l1, l2, h1, h2, h3⟩
      · left
        refine ⟨by rw [hstep, h1], ?_⟩
        intro hmem
        rcases List.mem_cons.mp hmem with h | h
        · exact hdot h.symm
        · exact h2 h
      · right
        refine ⟨d :: l1, l2, by simp [h1], ?_, ?_⟩
        · intro hmem
          rcases List.mem_cons.mp hmem with h | h
          · exact hdot h.symm
          · exact h2 h
        · rw [hstep, h3]; simp

/-- For a path that can name a file (not empty, not ending in a separator) the base
name splits into a stem and the extension `filepath.Ext` finds, which is empty
when the base name has no dot and otherwise starts at its last dot. -/
theorem Base_Ext_split (path : List Char) (h1 : path ≠ [])
    (h2 : endsInSeparator path = false) :
    ∃ stem, Base path = stem ++ Ext path ∧ SepFree (Base path) ∧
      ((Ext path = [] ∧ '.' ∉ Base path) ∨ ∃ rest, Ext path = '.' :: rest ∧ '.' ∉ rest) := by
  have hrevne : path.reverse ≠ [] := by simpa using h1
  obtain ⟨c, cs, hc⟩ := List.exists_cons_of_ne_nil hrevne
  have hcsep : isPathSeparator c = false := by
    have : path.getLast? = some c := by
      rw [List.getLast?_eq_head?_reverse, hc]; rfl
    simpa [endsInSeparator, this] using h2
  set l := path.reverse.takeWhile (fun c => !isPathSeparator c) with hl
  set rest := path.reverse.dropWhile (fun c => !isPathSeparator c) with hr
  have hsplit : path.reverse = l ++ rest := (List.takeWhile_append_dropWhile _ _).symm
  have hlsep : ∀ c ∈ l, isPathSeparator c = false := by
    intro d hd
    have := List.mem_takeWhile_imp hd
    simpa using this
  have hrest : rest = [] ∨ ∃ c r, rest = c :: r ∧ isPathSeparator c = true := by
    cases hrest : rest with
    | nil => exact Or.inl rfl
    | cons d r =>
      right
      refine ⟨d, r, rfl, ?_⟩
      have hne : path.reverse.dropWhile (fun c => !isPathSeparator c) ≠ [] := by
        rw [← hr, hrest]; simp
      have := List.head_dropWhile_not (fun c => !isPathSeparator c) path.reverse hne
      simp only [← hr, hrest, List.head_cons] at this
      simpa using this
  have hdrop : path.reverse.dropWhile isPathSeparator = path.reverse := by
    rw [hc]; simp [hcsep]
  have hlne : l ≠ [] := by
    rw [hl, hc]; simp [hcsep]
  have hbase : Base path = l.reverse := by
    have : l.reverse ≠ [] := by simpa using hlne
    simp only [Base, h1, if_false, hdrop, ← hl, this]
  have hext : Ext path = extLoop (l ++ rest) [] := by
    simp only [Ext, hsplit]
  have hsf : SepFree (Base path) := by
    rw [hbase]
    intro d hd
    exact hlsep d (List.mem_reverse.mp hd)
  rcases extLoop_spec l rest [] hlsep hrest with ⟨e1, e2⟩ | ⟨l1, l2, e1, e2, e3⟩
  · refine ⟨Base path, by rw [hext, e1]; simp, hsf, Or.inl ⟨by rw [hext, e1], ?_⟩⟩
    rw [hbase]
    intro hmem
    exact e2 (List.mem_reverse.mp hmem)
  · refine ⟨l2.reverse, ?_, hsf, Or.inr ⟨l1.reverse, by rw [hext, e3]; simp, ?_⟩⟩
    · rw [hbase, hext, e3, e1]; simp
    · intro hmem
      exact e2 (List.mem_reverse.mp hmem)

/-- The name `convertToJPG` gives the output is a file name, made of the stem of
the input's base name and `.jpg`. -/
theorem outputName_spec (path : List Char) (h1 : path ≠ [])
    (h2 : endsInSeparator path = false) :
    ∃ stem, Base path = stem ++ Ext path ∧ outputName path = stem ++ ".jpg".toList ∧
      SimpleName (outputName path) ∧
      ((Ext path = [] ∧ '.' ∉ Base path) ∨ ∃ rest, Ext path = '.' :: rest ∧ '.' ∉ rest) := by
  obtain ⟨stem, hb, hsf, hx⟩ := Base_Ext_split path h1 h2
  have hname : outputName path = stem ++ ".jpg".toList := by
    unfold outputName
    rw [hb, trimSuffix_append]
  refine ⟨stem, hb, hname, ?_, hx⟩
  have hstem : SepFree stem := by
    intro c hc
    exact hsf c (by rw [hb]; exact List.mem_append_left _ hc)
  rw [hname]
  refine ⟨by simp, ?_, ?_, ?_⟩
  · intro c hc
    rcases List.mem_append.mp hc with h | h
    · exact hstem c h
    · have hj : ∀ d ∈ ".jpg".toList, isPathSeparator d = false := by decide
      exact hj c h
  · intro h
    have := congrArg List.length h
    simp at this
  · intro h
    have := congrArg List.length h
    simp at this


/-! ## Lemmas on the file system and `convertToJPG` -/

@[simp] theorem FileSystem.set_resolve (fs : FileSystem) (p : List Char) (n : Option Node) :
    (fs.set p n).resolve = fs.resolve := rfl

theorem FileSystem.set_lookup (fs : FileSystem) (p q : List Char) (n : Option Node) :
    (fs.set p n).lookup q = if fs.resolve q = fs.resolve p then n else fs.lookup q := rfl

theorem FileSystem.set_lookup_same (fs : FileSystem) (p : List Char) (n : Option Node) :
    (fs.set p n).lookup p = n := by
  simp [FileSystem.set_lookup]

theorem FileSystem.set_lookup_other (fs : FileSystem) (p q : List Char) (n : Option Node)
    (h : fs.resolve q ≠ fs.resolve p) : (fs.set p n).lookup q = fs.lookup q := by
  simp [FileSystem.set_lookup, h]

theorem osOpen_file (faults : Faults) (fs : FileSystem) (path : List Char) (c : List Nat)
    (h : osOpen faults fs path = some (Handle.ofFile c)) :
    path ≠ [] ∧ endsInSeparator path = false ∧ fs.lookup path = some (Node.file c) := by
  unfold osOpen at h
  split at h
  · exact absurd h (by simp)
  · rename_i h1
    have hp : path ≠ [] := fun hp => h1 (Or.inr hp)
    split at h
    · exact absurd h (by simp)
    · exact absurd h (by simp)
    · rename_i c' hl
      split at h
      · exact absurd h (by simp)
      · rename_i he
        simp only [Option.some.injEq, Handle.ofFile.injEq] at h
        subst h
        exact ⟨hp, by simpa using he, hl⟩

theorem osCreate_spec (faults : Faults) (fs fs1 : FileSystem) (path : List Char)
    (h : osCreate faults fs path = some fs1) : fs1 = fs.set path (some (Node.file [])) := by
  unfold osCreate at h
  split at h
  · exact absurd h (by simp)
  · split at h
    · exact absurd h (by simp)
    · simpa using h.symm

theorem jpegEncode_ok (codec : Codec) (faults : Faults) (fs fs2 : FileSystem)
    (path : List Char) (img : Image) (q : Nat)
    (h : jpegEncode codec faults fs path img q = (fs2, true)) :
    fs2 = fs.set path (some (Node.file (codec.encodeJPEG img q))) := by
  unfold jpegEncode at h
  split at h
  · simp at h
  · split at h
    · simp at h
    · simp only [Prod.mk.injEq, and_true] at h
      exact h.symm

theorem jpegEncode_exists (codec : Codec) (faults : Faults) (fs : FileSystem)
    (path p : List Char) (img : Image) (q : Nat) (h : (fs.lookup p).isSome = true) :
    ((jpegEncode codec faults fs path img q).1.lookup p).isSome = true := by
  unfold jpegEncode
  split
  · exact h
  · split <;>
    · rw [FileSystem.set_lookup]
      split
      · rfl
      · exact h

theorem osRemove_spec (fails : Bool) (fs fs4 : FileSystem) (path : List Char)
    (h : osRemove fails fs path = some fs4) :
    fs4 = fs.set path none ∧ (fs.lookup path).isSome = true := by
  unfold osRemove at h
  split at h
  · exact absurd h (by simp)
  · split at h
    · exact absurd h (by simp)
    · rename_i n hn
      exact ⟨by simpa using h.symm, by simp [hn]⟩

theorem osRemove_absent (fails : Bool) (fs : FileSystem) (path : List Char)
    (h : fs.lookup path = none) : osRemove fails fs path = none := by
  unfold osRemove
  split
  · rfl
  · simp [h]

theorem osRename_same (faults : Faults) (fs fs3 : FileSystem) (p : List Char)
    (h : osRename faults fs p p = some fs3) : fs3 = fs := by
  unfold osRename at h
  split at h
  · exact absurd h (by simp)
  · split at h
    · exact absurd h (by simp)
    · simpa using h.symm

theorem convertToJPG_outcome (codec : Codec) (faults : Faults) (fs : FileSystem)
    (inputPath outputDir : List Char) :
    ConvOutcome codec faults fs inputPath outputDir
      (convertToJPG codec faults fs inputPath outputDir) := by
  cases hopen : osOpen faults fs inputPath with
  | none =>
    have : convertToJPG codec faults fs inputPath outputDir =
        ⟨some ConvError.opening, fs, [Call.osOpen inputPath]⟩ := by
      simp [convertToJPG, hopen]
    rw [this]
    exact ConvOutcome.opening hopen
  | some file =>
    cases hdec : imageDecode codec file with
    | error e =>
      have : convertToJPG codec faults fs inputPath outputDir =
          ⟨some (ConvError.decoding e), fs, [Call.osOpen inputPath, Call.imageDecode]⟩ := by
        simp [convertToJPG, hopen, hdec]
      rw [this]
      exact ConvOutcome.decoding file e hopen hdec
    | ok v =>
      obtain ⟨img, fmt⟩ := v
      have hfile : ∃ c, file = Handle.ofFile c := by
        cases file with
        | ofFile c => exact ⟨c, rfl⟩
        | ofDir => simp [imageDecode] at hdec
      obtain ⟨c, hc⟩ := hfile
      subst hc
      by_cases hfmt : fmt ∈ validFormats
      · cases hcr : osCreate faults fs (outputPathOf inputPath outputDir) with
        | none =>
          simp only [convertToJPG, hopen, hdec, hfmt, hcr, if_true]
          exact ConvOutcome.creating c img fmt hopen hdec hfmt hcr
        | some fs1 =>
          cases henc : jpegEncode codec faults fs1 (outputPathOf inputPath outputDir) img 90 with
          | mk fs2 ok =>
            cases ok with
            | false =>
              simp only [convertToJPG, hopen, hdec, hfmt, hcr, henc, if_true]
              exact ConvOutcome.encoding c img fmt fs1 fs2 hopen hdec hfmt hcr henc
            | true =>
              cases hren : osRename faults fs2 (outputPathOf inputPath outputDir)
                (Join [outputDir, Base (outputPathOf inputPath outputDir)]) with
              | none =>
                simp only [convertToJPG, hopen, hdec, hfmt, hcr, henc, hren, if_true]
                exact ConvOutcome.moving c img fmt fs1 fs2 hopen hdec hfmt hcr henc hren
              | some fs3 =>
                cases hrm : osRemove faults.removeFails fs3 inputPath with
                | none =>
                  simp only [convertToJPG, hopen, hdec, hfmt, hcr, henc, hren, hrm, if_true]
                  exact ConvOutcome.removing c img fmt fs1 fs2 fs3 hopen hdec hfmt hcr henc hren hrm
                | some fs4 =>
                  simp only [convertToJPG, hopen, hdec, hfmt, hcr, henc, hren, hrm, if_true]
                  exact ConvOutcome.done c img fmt fs1 fs2 fs3 fs4 hopen hdec hfmt hcr henc hren hrm
      · simp only [convertToJPG, hopen, hdec, hfmt, if_false]
        exact ConvOutcome.unsupported c img fmt hopen hdec hfmt

/-! ## Lemmas on the walk -/

theorem collect_append (acc : List (List Char)) (l1 l2 : List Visit) :
    collect acc (l1 ++ l2) =
      match collect acc l1 with
      | (files, some e) => (files, some e)
      | (files, none) => collect files l2 := by
  induction l1 generalizing acc with
  | nil => simp [collect]
  | cons v vs ih =>
    cases he : v.err with
    | some e => simp [collect, he]
    | none => simp [collect, he, ih]

theorem walkFn_ok (acc : List (List Char)) (path : List Char) (info : FileInfo) :
    walkFn acc path info none =
      (if collects ⟨path, info, none⟩ then acc ++ [path] else acc, none) := by
  unfold walkFn collects
  by_cases h : (!info.isDir && isImageFile info.name) = true
  · simp [h]
  · simp [h]

mutual
theorem walk_eq_collect (path : List Char) (acc : List (List Char)) :
    (e : Entry) → walk path acc e = collect acc (e.listing path)
  | Entry.file n => by
    simp [walk, Entry.listing, collect, walkFn_ok]
  | Entry.dir n entries => by
    have h := walkEntries_eq_collect path acc entries
    simp [walk, Entry.listing, collect, walkFn_ok, collects, h]
  | Entry.unreadableDir n err => by
    simp [walk, Entry.listing, collect, walkFn]
  | Entry.inaccessible n err => by
    simp [walk, Entry.listing, collect, walkFn]
theorem walkEntries_eq_collect (path : List Char) (acc : List (List Char)) :
    (es : Entries) → walkEntries path acc es = collect acc (es.listing path)
  | Entries.nil => by simp [walkEntries, Entries.listing, collect]
  | Entries.cons e rest => by
    have h1 := walk_eq_collect (Join [path, e.name]) acc e
    rw [walkEntries, Entries.listing, collect_append, h1]
    cases hc : collect acc (e.listing (Join [path, e.name])) with
    | mk files err =>
      cases err with
      | some x => rfl
      | none => exact walkEntries_eq_collect path files rest
end

theorem hasSuffix_iff (s suffix : List Char) : hasSuffix s suffix = true ↔ suffix <:+ s := by
  unfold hasSuffix
  constructor
  · intro h
    simp only [Bool.and_eq_true, decide_eq_true_eq, beq_iff_eq] at h
    have key := List.take_append_drop (s.length - suffix.length) s
    rw [h.2] at key
    exact ⟨s.take (s.length - suffix.length), key⟩
  · rintro ⟨t, rfl⟩
    simp

theorem isImageFileLoop_iff (name : List Char) (exts : List (List Char)) :
    isImageFileLoop name exts = true ↔ ∃ ext ∈ exts, ext <:+ toLower name := by
  induction exts with
  | nil => simp [isImageFileLoop]
  | cons e es ih =>
    unfold isImageFileLoop
    by_cases h : hasSuffix (toLower name) e = true
    · simp only [h, if_true, true_iff]
      exact ⟨e, List.mem_cons_self _ _, (hasSuffix_iff _ _).mp h⟩
    · have h' : ¬ e <:+ toLower name := fun hs => h ((hasSuffix_iff _ _).mpr hs)
      simp only [h, if_false, ih, Bool.false_eq_true]
      constructor
      · rintro ⟨x, hx, hs⟩
        exact ⟨x, List.mem_cons_of_mem _ hx, hs⟩
      · rintro ⟨x, hx, hs⟩
        rcases List.mem_cons.mp hx with rfl | hx
        · exact absurd hs h'
        · exact ⟨x, hx, hs⟩

theorem specLowerCasedChar_eq (c : Char) : specLowerCasedChar c = unicodeToLower c := by
  unfold specLowerCasedChar unicodeToLower Char.toLower
  by_cases h1 : c = Char.ofNat 0x130
  · subst h1
    decide
  · by_cases h2 : c = Char.ofNat 0x212A
    · subst h2
      decide
    · have n1 : c.toNat ≠ 0x130 := fun h => h1 (by rw [← h, Char.ofNat_toNat])
      have n2 : c.toNat ≠ 0x212A := fun h => h2 (by rw [← h, Char.ofNat_toNat])
      simp only [h1, h2, n1, n2, if_false, ge_iff_le]

theorem specLowerCased_eq (name : List Char) : specLowerCased name = toLower name := by
  unfold specLowerCased toLower
  exact List.map_congr_left (fun c _ => specLowerCasedChar_eq c)

theorem specSuffixes_eq : specSuffixes = extensions := by decide

theorem isImageFile_iff (name : List Char) : isImageFile name = true ↔ SpecImageName name := by
  unfold SpecImageName
  rw [specSuffixes_eq, specLowerCased_eq]
  exact isImageFileLoop_iff name extensions

theorem collects_eq (v : Visit) :
    collects v = (!v.info.isDir && decide (SpecImageName v.info.name)) := by
  unfold collects
  congr 1
  rw [Bool.eq_iff_iff]
  simp [isImageFile_iff]

theorem collect_spec (acc : List (List Char)) (vs : List Visit) :
    collect acc vs = (acc ++ specImagePaths (beforeFailure vs), firstFailure vs) := by
  induction vs generalizing acc with
  | nil => simp [collect, specImagePaths, beforeFailure, firstFailure]
  | cons v vs ih =>
    cases he : v.err with
    | some e => simp [collect, he, specImagePaths, beforeFailure, firstFailure]
    | none =>
      simp only [collect, he, ih, beforeFailure, firstFailure, List.takeWhile_cons,
        Option.isNone_none, if_true, List.find?_cons, Option.isSome_none]
      by_cases hc : collects v = true
      · have hc' := hc
        rw [collects_eq] at hc'
        simp [hc, specImagePaths, List.filter_cons, hc']
      · have hc' := hc
        rw [collects_eq] at hc'
        simp [hc, specImagePaths, List.filter_cons, hc']

theorem readImageFiles_spec (dir : List Char) (tree : Entry) :
    readImageFiles dir tree =
      (specImagePaths (beforeFailure (tree.listing dir)), firstFailure (tree.listing dir)) := by
  rw [readImageFiles, walk_eq_collect, collect_spec]
  simp

mutual
theorem listing_accessible (path : List Char) :
    (e : Entry) → e.accessible = true → ∀ v ∈ e.listing path, v.err = none
  | Entry.file n, _ => by simp [Entry.listing]
  | Entry.dir n entries, h => by
    have ih := entriesListing_accessible path entries (by simpa [Entry.accessible] using h)
    intro v hv
    simp only [Entry.listing, List.mem_cons] at hv
    rcases hv with rfl | hv
    · rfl
    · exact ih v hv
  | Entry.unreadableDir n err, h => by simp [Entry.accessible] at h
  | Entry.inaccessible n err, h => by simp [Entry.accessible] at h
theorem entriesListing_accessible (path : List Char) :
    (es : Entries) → es.accessible = true → ∀ v ∈ es.listing path, v.err = none
  | Entries.nil, _ => by simp [Entries.listing]
  | Entries.cons e rest, h => by
    simp only [Entries.accessible, Bool.and_eq_true] at h
    have h1 := listing_accessible (Join [path, e.name]) e h.1
    have h2 := entriesListing_accessible path rest h.2
    intro v hv
    simp only [Entries.listing, List.mem_append] at hv
    rcases hv with hv | hv
    · exact h1 v hv
    · exact h2 v hv
end

theorem beforeFailure_all (vs : List Visit) (h : ∀ v ∈ vs, v.err = none) :
    beforeFailure vs = vs ∧ firstFailure vs = none := by
  induction vs with
  | nil => simp [beforeFailure, firstFailure]
  | cons v vs ih =>
    have hv := h v (List.mem_cons_self _ _)
    have := ih (fun u hu => h u (List.mem_cons_of_mem _ hu))
    unfold beforeFailure firstFailure at this ⊢
    simp [hv, this.1, this.2]

theorem cleanStack_render (r : Bool) (S : List (List Char)) (h : GoodStack r S)
    (hS : S ≠ []) :
    renderPath r S ≠ [] ∧ isRooted (renderPath r S) = r ∧ cleanStack r (renderPath r S) = S := by
  have hne : S.reverse ≠ [] := by simpa using hS
  obtain ⟨x, xs, hx⟩ := List.exists_cons_of_ne_nil hne
  have hall : ∀ e ∈ x :: xs, SepFree e := by
    intro e he
    rw [← hx] at he
    exact (goodStack_sepFree r S h e (List.mem_reverse.mp he)).2
  have hxne : x ≠ [] := by
    have : x ∈ S := List.mem_reverse.mp (by rw [hx]; exact List.mem_cons_self _ _)
    exact (goodStack_sepFree r S h x this).1
  have hsplit := splitSep_intercalate x xs hall
  have hfold : (x :: xs).foldl (cleanStep r) [] = S := by
    rw [← hx]; exact foldl_repush r S h
  cases r with
  | true =>
    have hP : renderPath true S = [] ++ '/' :: List.intercalate ['/'] (x :: xs) := by
      simp [renderPath, hx]
    refine ⟨by simp [renderPath], by simp [renderPath, isRooted, isPathSeparator], ?_⟩
    unfold cleanStack
    rw [hP, splitSep_append_sep, hsplit]
    simp only [splitSep, List.foldl_append, List.foldl_cons, List.foldl_nil, cleanStep_nil]
    exact hfold
  | false =>
    have hP : renderPath false S = List.intercalate ['/'] (x :: xs) := by
      simp [renderPath, hS, hx]
    obtain ⟨c, cs, hc⟩ := List.exists_cons_of_ne_nil hxne
    have hsep : isPathSeparator c = false :=
      hall x (List.mem_cons_self _ _) c (by rw [hc]; exact List.mem_cons_self _ _)
    refine ⟨?_, ?_, ?_⟩
    · rw [hP]
      cases xs with
      | nil => simp [List.intercalate, hc]
      | cons y ys => simp [List.intercalate, hc]
    · rw [hP]
      cases xs with
      | nil => simp [List.intercalate, hc, isRooted, hsep]
      | cons y ys => simp [List.intercalate, hc, isRooted, hsep]
    · unfold cleanStack
      rw [hP, hsplit]
      exact hfold

theorem goodStack_push (r : Bool) (S : List (List Char)) (n : List Char)
    (h : GoodStack r S) (hn : SimpleName n) : GoodStack r (n :: S) :=
  ⟨hn.1, hn.2.1, hn.2.2.1, fun hdd => absurd hdd hn.2.2.2, h⟩

theorem Join_render (r : Bool) (S : List (List Char)) (n : List Char)
    (h : GoodStack r S) (hS : S ≠ []) (hn : SimpleName n) :
    Join [renderPath r S, n] = renderPath r (n :: S) := by
  obtain ⟨h1, h2, h3⟩ := cleanStack_render r S h hS
  rw [Join_pair _ n h1, Clean_append_name _ n h1 hn, h2, h3]

theorem Join_root (root n : List Char) (hn : SimpleName n) :
    Join [root, n] =
      renderPath (isRooted root) (n :: cleanStack (isRooted root) root) := by
  by_cases hr : root = []
  · subst hr
    rw [Join_nil_pair n hn.1, Clean_simple n hn]
    simp [isRooted, cleanStack, splitSep, cleanStep, renderPath, List.intercalate]
  · rw [Join_pair root n hr, Clean_append_name root n hr hn]

theorem renderPath_inj (r : Bool) (S T : List (List Char)) (hS : GoodStack r S)
    (hT : GoodStack r T) (hSne : S ≠ []) (hTne : T ≠ [])
    (h : renderPath r S = renderPath r T) : S = T := by
  have h1 := (cleanStack_render r S hS hSne).2.2
  have h2 := (cleanStack_render r T hT hTne).2.2
  rw [h] at h1
  rw [← h1, h2]

mutual
theorem listing_paths (r : Bool) :
    (e : Entry) → (S : List (List Char)) → GoodStack r S → S ≠ [] → e.wellNamed = true →
      (∀ v ∈ e.listing (renderPath r S),
        ∃ c, v.path = renderPath r (c ++ S) ∧ GoodStack r (c ++ S)) ∧
      ((e.listing (renderPath r S)).map Visit.path).Nodup
  | Entry.file n, S, hS, _, _ => by
    refine ⟨?_, by simp [Entry.listing]⟩
    intro v hv
    simp only [Entry.listing, List.mem_singleton] at hv
    subst hv
    exact ⟨[], rfl, hS⟩
  | Entry.unreadableDir n err, S, hS, _, _ => by
    refine ⟨?_, by simp [Entry.listing]⟩
    intro v hv
    simp only [Entry.listing, List.mem_singleton] at hv
    subst hv
    exact ⟨[], rfl, hS⟩
  | Entry.inaccessible n err, S, hS, _, _ => by
    refine ⟨?_, by simp [Entry.listing]⟩
    intro v hv
    simp only [Entry.listing, List.mem_singleton] at hv
    subst hv
    exact ⟨[], rfl, hS⟩
  | Entry.dir n entries, S, hS, hne, hw => by
    have hanch : Anchored r S (renderPath r S) := fun m hm => Join_render r S m hS hne hm
    obtain ⟨ih1, ih2⟩ := entriesListing_paths r entries S (renderPath r S) hS hanch
      (by simpa [Entry.wellNamed] using hw)
    constructor
    · intro v hv
      simp only [Entry.listing, List.mem_cons] at hv
      rcases hv with rfl | hv
      · exact ⟨[], rfl, hS⟩
      · obtain ⟨c, m, _, hp, hg⟩ := ih1 v hv
        exact ⟨c ++ [m], by simpa using hp, by simpa using hg⟩
    · simp only [Entry.listing, List.map_cons, List.nodup_cons]
      refine ⟨?_, ih2⟩
      intro hmem
      obtain ⟨v, hv, hpv⟩ := List.mem_map.mp hmem
      obtain ⟨c, m, _, hp, hg⟩ := ih1 v hv
      have heq : renderPath r (c ++ m :: S) = renderPath r S := by rw [← hp, hpv]
      have := renderPath_inj r _ _ hg hS (by simp) hne heq
      have hlen := congrArg List.length this
      simp at hlen
      omega
theorem entriesListing_paths (r : Bool) :
    (es : Entries) → (S : List (List Char)) → (D : List Char) → GoodStack r S →
      Anchored r S D → es.wellNamed = true →
      (∀ v ∈ es.listing D, ∃ c m, m ∈ es.toList.map Entry.name ∧
        v.path = renderPath r (c ++ m :: S) ∧ GoodStack r (c ++ m :: S)) ∧
      ((es.listing D).map Visit.path).Nodup
  | Entries.nil, S, D, _, _, _ => by simp [Entries.listing]
  | Entries.cons e rest, S, D, hS, hanch, hw => by
    simp only [Entries.wellNamed, Bool.and_eq_true, decide_eq_true_eq] at hw
    obtain ⟨⟨⟨hname, hfresh⟩, hwe⟩, hwr⟩ := hw
    have hgood : GoodStack r (e.name :: S) := goodStack_push r S e.name hS hname
    obtain ⟨e1, e2⟩ := listing_paths r e (e.name :: S) hgood (by simp) hwe
    obtain ⟨r1, r2⟩ := entriesListing_paths r rest S D hS hanch hwr
    rw [← hanch e.name hname] at e1 e2
    constructor
    · intro v hv
      simp only [Entries.listing, List.mem_append] at hv
      rcases hv with hv | hv
      · obtain ⟨c, hp, hg⟩ := e1 v hv
        exact ⟨c, e.name, by simp [Entries.toList], hp, hg⟩
      · obtain ⟨c, m, hm, hp, hg⟩ := r1 v hv
        exact ⟨c, m, by simp only [Entries.toList, List.map_cons]; exact List.mem_cons_of_mem _ hm,
          hp, hg⟩
    · simp only [Entries.listing, List.map_append]
      refine List.Nodup.append e2 r2 ?_
      intro p hp1 hp2
      obtain ⟨v, hv, hpv⟩ := List.mem_map.mp hp1
      obtain ⟨w, hw', hpw⟩ := List.mem_map.mp hp2
      obtain ⟨c, hp, hg⟩ := e1 v hv
      obtain ⟨c', m, hm, hp', hg'⟩ := r1 w hw'
      have heq : renderPath r (c ++ e.name :: S) = renderPath r (c' ++ m :: S) := by
        rw [← hp, ← hp', hpv, hpw]
      have hst := renderPath_inj r _ _ hg hg' (by simp) (by simp) heq
      have h1 : (c ++ [e.name]) ++ S = (c' ++ [m]) ++ S := by simpa using hst
      have h2 := List.append_cancel_right h1
      have h3 : e.name = m := by
        have := congrArg List.getLast? h2
        simpa using this
      exact hfresh (h3 ▸ hm)
end

theorem specImagePaths_nodup (vs : List Visit) (h : (vs.map Visit.path).Nodup) :
    (specImagePaths vs).Nodup :=
  List.Nodup.sublist (List.Sublist.map _ (List.filter_sublist _)) h

theorem listing_specImagePaths_nodup (dir : List Char) (tree : Entry)
    (hw : tree.wellNamed = true) : (specImagePaths (tree.listing dir)).Nodup := by
  cases tree with
  | file n => simp [Entry.listing, specImagePaths, List.filter_cons]; split <;> simp
  | unreadableDir n err => simp [Entry.listing, specImagePaths, List.filter_cons]
  | inaccessible n err => simp [Entry.listing, specImagePaths, List.filter_cons]; split <;> simp
  | dir n entries =>
    have hanch : Anchored (isRooted dir) (cleanStack (isRooted dir) dir) dir :=
      fun m hm => Join_root dir m hm
    obtain ⟨_, h2⟩ := entriesListing_paths (isRooted dir) entries _ dir
      (goodStack_cleanStack _ dir) hanch (by simpa [Entry.wellNamed] using hw)
    have : specImagePaths (Entry.listing dir (Entry.dir n entries)) =
        specImagePaths (entries.listing dir) := by
      simp [Entry.listing, specImagePaths, List.filter_cons]
    rw [this]
    exact specImagePaths_nodup _ h2

/-! ## The output path and the effect of `convertToJPG` -/

theorem outputPath_props (inputPath outputDir : List Char) (h1 : inputPath ≠ [])
    (h2 : endsInSeparator inputPath = false) :
    ∃ stem, Base inputPath = stem ++ Ext inputPath ∧
      ((Ext inputPath = [] ∧ '.' ∉ Base inputPath) ∨
        ∃ rest, Ext inputPath = '.' :: rest ∧ '.' ∉ rest) ∧
      outputPathOf inputPath outputDir = Join [outputDir, stem ++ ".jpg".toList] ∧
      ".jpg".toList <:+ outputPathOf inputPath outputDir ∧
      Dir (outputPathOf inputPath outputDir) = Clean outputDir ∧
      Base (outputPathOf inputPath outputDir) = stem ++ ".jpg".toList := by
  obtain ⟨stem, hb, hname, hsimple, hx⟩ := outputName_spec inputPath h1 h2
  obtain ⟨j1, j2, pre, j3⟩ := Join_name outputDir (outputName inputPath) hsimple
  refine ⟨stem, hb, hx, by rw [outputPathOf, hname], ?_, j2, by rw [outputPathOf, j1, hname]⟩
  rw [outputPathOf, j3, hname]
  exact ⟨pre ++ stem, by simp⟩

theorem finalOutputPath_eq (inputPath outputDir : List Char) (h1 : inputPath ≠ [])
    (h2 : endsInSeparator inputPath = false) :
    Join [outputDir, Base (outputPathOf inputPath outputDir)] =
      outputPathOf inputPath outputDir := by
  obtain ⟨stem, _, hname, hsimple, _⟩ := outputName_spec inputPath h1 h2
  obtain ⟨j1, _, _⟩ := Join_name outputDir (outputName inputPath) hsimple
  rw [outputPathOf, j1]

/-- C7. Whenever `convertToJPG` computes an output path `p` (the path it hands to
`os.Create`), the input's base name is a stem followed by its final extension (the
suffix starting at the last dot of the base name, empty without a dot), `p` is
the output directory joined with stem + `.jpg`, `p` ends in `.jpg`, its parent is
the (cleaned) output directory and its base name is stem + `.jpg`. -/
theorem convertToJPG_outputPath (codec : Codec) (faults : Faults) (fs : FileSystem)
    (inputPath outputDir p : List Char)
    (h : Call.osCreate p ∈ (convertToJPG codec faults fs inputPath outputDir).calls) :
    ∃ stem, Base inputPath = stem ++ Ext inputPath ∧
      ((Ext inputPath = [] ∧ '.' ∉ Base inputPath) ∨
        ∃ rest, Ext inputPath = '.' :: rest ∧ '.' ∉ rest) ∧
      p = Join [outputDir, stem ++ ".jpg".toList] ∧
      ".jpg".toList <:+ p ∧ Dir p = Clean outputDir ∧ Base p = stem ++ ".jpg".toList := by
  have key : ∀ c, osOpen faults fs inputPath = some (Handle.ofFile c) →
      p = outputPathOf inputPath outputDir → _ := fun c hc hp => by
    obtain ⟨n1, n2, _⟩ := osOpen_file faults fs inputPath c hc
    have := outputPath_props inputPath outputDir n1 n2
    rw [← hp] at this
    exact this
  have ho := convertToJPG_outcome codec faults fs inputPath outputDir
  generalize convertToJPG codec faults fs inputPath outputDir = r at h ho
  cases ho with
  | opening _ => simp at h
  | decoding _ _ _ _ => simp at h
  | unsupported _ _ _ _ _ _ => simp at h
  | creating c _ _ h1 _ _ _ => exact key c h1 (by simpa using h)
  | encoding c _ _ _ _ h1 _ _ _ _ => exact key c h1 (by simpa using h)
  | moving c _ _ _ _ h1 _ _ _ _ _ => exact key c h1 (by simpa using h)
  | removing c _ _ _ _ _ h1 _ _ _ _ _ _ => exact key c h1 (by simpa using h)
  | done c _ _ _ _ _ _ h1 _ _ _ _ _ _ => exact key c h1 (by simpa using h)

/-- What a `nil` return of `convertToJPG` leaves: the input path no longer exists,
and if the input path and the output path name different files, the output path
holds the JPEG encoding at quality 90 of the image decoded from the input. -/
theorem convertToJPG_nil_replaces (codec : Codec) (faults : Faults) (fs : FileSystem)
    (inputPath outputDir : List Char)
    (h : (convertToJPG codec faults fs inputPath outputDir).err = none) :
    (convertToJPG codec faults fs inputPath outputDir).fs.pathExists inputPath = false ∧
    (fs.resolve inputPath ≠ fs.resolve (outputPathOf inputPath outputDir) →
      ∃ c img fmt, fs.lookup inputPath = some (Node.file c) ∧
        imageDecode codec (Handle.ofFile c) = Except.ok (img, fmt) ∧
        (convertToJPG codec faults fs inputPath outputDir).fs.lookup
          (outputPathOf inputPath outputDir) = some (Node.file (codec.encodeJPEG img 90))) := by
  have ho := convertToJPG_outcome codec faults fs inputPath outputDir
  generalize convertToJPG codec faults fs inputPath outputDir = r at h ho
  cases ho with
  | opening _ => simp at h
  | decoding _ _ _ _ => simp at h
  | unsupported _ _ _ _ _ _ => simp at h
  | creating _ _ _ _ _ _ _ => simp at h
  | encoding _ _ _ _ _ _ _ _ _ _ => simp at h
  | moving _ _ _ _ _ _ _ _ _ _ _ => simp at h
  | removing _ _ _ _ _ _ _ _ _ _ _ _ _ => simp at h
  | done c img fmt fs1 fs2 fs3 fs4 h1 h2 h3 h4 h5 h6 h7 =>
    obtain ⟨n1, n2, hl⟩ := osOpen_file faults fs inputPath c h1
    rw [finalOutputPath_eq inputPath outputDir n1 n2] at h6
    have e3 := osRename_same faults fs2 fs3 _ h6
    have e1 := osCreate_spec faults fs fs1 _ h4
    have e2 := jpegEncode_ok codec faults fs1 fs2 _ img 90 h5
    obtain ⟨e4, _⟩ := osRemove_spec _ fs3 fs4 inputPath h7
    subst e3 e2 e1
    have hgone : fs4.lookup inputPath = none := by
      rw [e4]; exact FileSystem.set_lookup_same _ _ _
    refine ⟨by simp [FileSystem.pathExists, hgone], ?_⟩
    intro hne
    refine ⟨c, img, fmt, hl, h2, ?_⟩
    show fs4.lookup _ = _
    rw [e4, FileSystem.set_lookup_other _ _ _ _ (by simpa using Ne.symm hne)]
    exact FileSystem.set_lookup_same _ _ _

theorem convertToJPG_decode_error (codec : Codec) (faults : Faults) (fs : FileSystem)
    (inputPath outputDir : List Char) (file : Handle) (e : DecodeError)
    (hopen : osOpen faults fs inputPath = some file)
    (hdec : imageDecode codec file = Except.error e) :
    convertToJPG codec faults fs inputPath outputDir =
      ⟨some (ConvError.decoding e), fs, [Call.osOpen inputPath, Call.imageDecode]⟩ := by
  simp [convertToJPG, hopen, hdec]

theorem imageDecode_unknown (codec : Codec) (content : List Nat)
    (h : sniff (registeredFormats codec) content = none) :
    imageDecode codec (Handle.ofFile content) = Except.error DecodeError.unknownFormat := by
  simp [imageDecode, h]

theorem stringsContains_of_infix (pre sub post : List Char) :
    stringsContains (pre ++ sub ++ post) sub = true := by
  unfold stringsContains
  rw [List.any_eq_true]
  refine ⟨sub ++ post, ?_, ?_⟩
  · rw [List.mem_tails, List.append_assoc]
    exact List.suffix_append _ _
  · rw [List.isPrefixOf_iff_prefix]
    exact List.prefix_append _ _

/-- After a successful conversion the second `os.Remove` of `main` finds nothing
to remove, and `main` returns: no file after it is visited. -/
theorem mainLoop_stops_after_success (codec : Codec) (faultsAt : Nat → Faults)
    (outputDir : List Char) (i : Nat) (fs : FileSystem) (file : List Char)
    (rest : List (List Char)) (hsel : stringsContains file "png".toList = true)
    (hok : (convertToJPG codec (faultsAt i) fs file outputDir).err = none) :
    mainLoop codec faultsAt outputDir i fs (file :: rest) =
      ((convertToJPG codec (faultsAt i) fs file outputDir).fs,
        [Event.converted file, Event.errorRemoving]) := by
  have ho := convertToJPG_outcome codec (faultsAt i) fs file outputDir
  have hgone : (convertToJPG codec (faultsAt i) fs file outputDir).fs.lookup file = none := by
    generalize convertToJPG codec (faultsAt i) fs file outputDir = r at hok ho
    cases ho with
    | opening _ => simp at hok
    | decoding _ _ _ _ => simp at hok
    | unsupported _ _ _ _ _ _ => simp at hok
    | creating _ _ _ _ _ _ _ => simp at hok
    | encoding _ _ _ _ _ _ _ _ _ _ => simp at hok
    | moving _ _ _ _ _ _ _ _ _ _ _ => simp at hok
    | removing _ _ _ _ _ _ _ _ _ _ _ _ _ => simp at hok
    | done c img fmt fs1 fs2 fs3 fs4 h1 h2 h3 h4 h5 h6 h7 =>
      obtain ⟨e4, _⟩ := osRemove_spec _ fs3 fs4 file h7
      show fs4.lookup file = none
      rw [e4]
      exact FileSystem.set_lookup_same _ _ _
  rw [mainLoop]
  simp only [hsel, if_true, hok, osRemove_absent _ _ _ hgone]

/-- The loop of `main` over a list in two parts: as long as the first part does
not end in the `return` of line 66, the second part is run on the file system
the first part leaves. -/
theorem mainLoop_append (codec : Codec) (faultsAt : Nat → Faults) (outputDir : List Char)
    (before : List (List Char)) :
    ∀ (i : Nat) (fs : FileSystem) (rest : List (List Char)),
      Event.errorRemoving ∉ (mainLoop codec faultsAt outputDir i fs before).2 →
      mainLoop codec faultsAt outputDir i fs (before ++ rest) =
        ((mainLoop codec faultsAt outputDir (i + before.length)
            (mainLoop codec faultsAt outputDir i fs before).1 rest).1,
          (mainLoop codec faultsAt outputDir i fs before).2 ++
            (mainLoop codec faultsAt outputDir (i + before.length)
              (mainLoop codec faultsAt outputDir i fs before).1 rest).2) := by
  induction before with
  | nil =>
    intro i fs rest _
    simp [mainLoop]
  | cons file before ih =>
    intro i fs rest h
    have hidx : i + 1 + before.length = i + (file :: before).length := by
      simp only [List.length_cons]; omega
    by_cases hsel : stringsContains file "png".toList = true
    · cases herr : (convertToJPG codec (faultsAt i) fs file outputDir).err with
      | some err =>
        have hM : ∀ l, mainLoop codec faultsAt outputDir i fs (file :: l) =
            ((mainLoop codec faultsAt outputDir (i + 1)
                (convertToJPG codec (faultsAt i) fs file outputDir).fs l).1,
              Event.errorConverting file err ::
                (mainLoop codec faultsAt outputDir (i + 1)
                  (convertToJPG codec (faultsAt i) fs file outputDir).fs l).2) := by
          intro l
          rw [mainLoop]
          simp only [hsel, if_true, herr]
        rw [hM] at h
        have h' : Event.errorRemoving ∉ (mainLoop codec faultsAt outputDir (i + 1)
            (convertToJPG codec (faultsAt i) fs file outputDir).fs before).2 :=
          fun hm => h (List.mem_cons_of_mem _ hm)
        rw [List.cons_append, hM, hM, ih _ _ rest h', hidx]
        rfl
      | none =>
        cases hrm : osRemove (faultsAt i).mainRemoveFails
            (convertToJPG codec (faultsAt i) fs file outputDir).fs file with
        | none =>
          have hM : mainLoop codec faultsAt outputDir i fs (file :: before) =
              ((convertToJPG codec (faultsAt i) fs file outputDir).fs,
                [Event.converted file, Event.errorRemoving]) := by
            rw [mainLoop]
            simp only [hsel, if_true, herr, hrm]
          rw [hM] at h
          exact absurd (List.mem_cons_of_mem _ (List.mem_singleton.mpr rfl)) h
        | some fs1 =>
          have hM : ∀ l, mainLoop codec faultsAt outputDir i fs (file :: l) =
              ((mainLoop codec faultsAt outputDir (i + 1) fs1 l).1,
                Event.converted file ::
                  (mainLoop codec faultsAt outputDir (i + 1) fs1 l).2) := by
            intro l
            rw [mainLoop]
            simp only [hsel, if_true, herr, hrm]
          rw [hM] at h
          have h' : Event.errorRemoving ∉
              (mainLoop codec faultsAt outputDir (i + 1) fs1 before).2 :=
            fun hm => h (List.mem_cons_of_mem _ hm)
          rw [List.cons_append, hM, hM, ih _ _ rest h', hidx]
          rfl
    · have hM : ∀ l, mainLoop codec faultsAt outputDir i fs (file :: l) =
          mainLoop codec faultsAt outputDir (i + 1) fs l := by
        intro l
        rw [mainLoop]
        simp only [hsel, Bool.false_eq_true, if_false]
      rw [hM] at h
      rw [List.cons_append, hM, hM, ih _ _ rest h, hidx]

/-- C7, an instance: converting `root/photo.png` into `converted` computes the
output path `converted/photo.jpg`. -/
theorem convertToJPG_outputPath_witness :
    Call.osCreate "converted/photo.jpg".toList ∈
        (convertToJPG sampleCodec noFaults photoFS "root/photo.png".toList
          "converted".toList).calls ∧
      ∃ stem, Base "root/photo.png".toList = stem ++ Ext "root/photo.png".toList ∧
        ((Ext "root/photo.png".toList = [] ∧ '.' ∉ Base "root/photo.png".toList) ∨
          ∃ rest, Ext "root/photo.png".toList = '.' :: rest ∧ '.' ∉ rest) ∧
        "converted/photo.jpg".toList = Join ["converted".toList, stem ++ ".jpg".toList] ∧
        ".jpg".toList <:+ "converted/photo.jpg".toList ∧
        Dir "converted/photo.jpg".toList = Clean "converted".toList ∧
        Base "converted/photo.jpg".toList = stem ++ ".jpg".toList :=
  ⟨by decide,
    convertToJPG_outputPath sampleCodec noFaults photoFS "root/photo.png".toList
      "converted".toList "converted/photo.jpg".toList (by decide)⟩

/-- The path functions on cases of the test tables of Go's `path/filepath`. -/
theorem filepath_samples :
    Clean "abc/def/../../../ghi/jkl/../../../mno".toList = "../../mno".toList ∧
    Clean "/abc/def/../../..".toList = "/".toList ∧
    Clean "abc//./../def".toList = "def".toList ∧
    Clean "".toList = ".".toList ∧
    Base "a/b/c.x".toList = "c.x".toList ∧ Base "x/".toList = "x".toList ∧
    Base "////".toList = "/".toList ∧ Base "".toList = ".".toList ∧
    Ext "path.pb.go".toList = ".go".toList ∧ Ext "a.dir/b".toList = "".toList ∧
    Ext "a.dir/".toList = "".toList ∧
    Dir "a/b/c.x".toList = "a/b".toList ∧ Dir "/foo".toList = "/".toList ∧
    Dir "abc".toList = ".".toList ∧
    Join ["a".toList, "b".toList] = "a/b".toList ∧ Join ["".toList, "b".toList] = "b".toList ∧
    Join ["a/".toList, "".toList] = "a".toList ∧ Join ["//".toList, "a".toList] = "/a".toList := by
  decide

/-- The three sample paths of the specification. -/
theorem outputPathOf_samples :
    outputPathOf "root/photo.png".toList "converted".toList = "converted/photo.jpg".toList ∧
    outputPathOf "root/a.tar.png".toList "converted".toList = "converted/a.tar.jpg".toList ∧
    outputPathOf "root/noext".toList "converted".toList = "converted/noext.jpg".toList := by
  decide

/-- C2, the code at the failing input: a valid JPEG lies in the output directory
as `converted/photo.jpg` and is converted into that directory.  The output path
is the input path: `os.Create` truncates the file, `jpeg.Encode` rewrites it,
`os.Rename` moves it onto itself and `os.Remove` deletes it.  The function returns
`nil`, and neither the input nor an output artifact is left. -/
theorem convertToJPG_same_file_loses_image :
    convertedFS.lookup "converted/photo.jpg".toList = some (Node.file validJPEG) ∧
    outputPathOf "converted/photo.jpg".toList "converted".toList =
      "converted/photo.jpg".toList ∧
    (convertToJPG sampleCodec noFaults convertedFS "converted/photo.jpg".toList
      "converted".toList).err = none ∧
    (convertToJPG sampleCodec noFaults convertedFS "converted/photo.jpg".toList
      "converted".toList).calls =
      [Call.osOpen "converted/photo.jpg".toList, Call.imageDecode,
        Call.osCreate "converted/photo.jpg".toList, Call.jpegEncode true,
        Call.osRename "converted/photo.jpg".toList "converted/photo.jpg".toList,
        Call.osRemove "converted/photo.jpg".toList] ∧
    (convertToJPG sampleCodec noFaults convertedFS "converted/photo.jpg".toList
      "converted".toList).fs.pathExists "converted/photo.jpg".toList = false := by
  decide

/-- An instance of `convertToJPG_nil_replaces`: `root/photo.png` converted into
`converted`. -/
theorem convertToJPG_nil_replaces_witness :
    (convertToJPG sampleCodec noFaults photoFS "root/photo.png".toList
      "converted".toList).err = none ∧
    ((convertToJPG sampleCodec noFaults photoFS "root/photo.png".toList
        "converted".toList).fs.pathExists "root/photo.png".toList = false ∧
      (photoFS.resolve "root/photo.png".toList ≠
          photoFS.resolve (outputPathOf "root/photo.png".toList "converted".toList) →
        ∃ c img fmt, photoFS.lookup "root/photo.png".toList = some (Node.file c) ∧
          imageDecode sampleCodec (Handle.ofFile c) = Except.ok (img, fmt) ∧
          (convertToJPG sampleCodec noFaults photoFS "root/photo.png".toList
            "converted".toList).fs.lookup
              (outputPathOf "root/photo.png".toList "converted".toList) =
            some (Node.file (sampleCodec.encodeJPEG img 90)))) :=
  ⟨by decide,
    convertToJPG_nil_replaces sampleCodec noFaults photoFS "root/photo.png".toList
      "converted".toList (by decide)⟩

/-- C5, the claim fails: a WebP file is refused with the decode error (the
sentinel `image.ErrFormat`), which is not the unsupported-format error. -/
theorem convertToJPG_webp_counterexample :
    (convertToJPG sampleCodec noFaults webpFS "root/anim.webp".toList
      "converted".toList).err = some (ConvError.decoding DecodeError.unknownFormat) ∧
    ¬ ∃ format, (convertToJPG sampleCodec noFaults webpFS "root/anim.webp".toList
      "converted".toList).err = some (ConvError.unsupportedFormat format) := by
  refine ⟨by decide, ?_⟩
  rintro ⟨format, h⟩
  have h0 : (convertToJPG sampleCodec noFaults webpFS "root/anim.webp".toList
      "converted".toList).err = some (ConvError.decoding DecodeError.unknownFormat) := by
    decide
  rw [h0] at h
  exact absurd h (by simp)

/-- C5 (as amended). For every file that opens and whose content matches the magic
of no registered format, `convertToJPG` fails with the decode error for an unknown
format, after the calls of `os.Open` and `image.Decode` only, and leaves the file
system as it was: the original is not deleted and no output file is created. -/
theorem convertToJPG_unregistered_format (codec : Codec) (faults : Faults)
    (fs : FileSystem) (inputPath outputDir : List Char) (content : List Nat)
    (hopen : osOpen faults fs inputPath = some (Handle.ofFile content))
    (hsniff : sniff (registeredFormats codec) content = none) :
    (convertToJPG codec faults fs inputPath outputDir).err =
        some (ConvError.decoding DecodeError.unknownFormat) ∧
      (convertToJPG codec faults fs inputPath outputDir).fs = fs ∧
      (convertToJPG codec faults fs inputPath outputDir).calls =
        [Call.osOpen inputPath, Call.imageDecode] := by
  rw [convertToJPG_decode_error codec faults fs inputPath outputDir _ _ hopen
    (imageDecode_unknown codec content hsniff)]
  exact ⟨rfl, rfl, rfl⟩

/-- C5 (as amended), an instance: the WebP file `root/anim.webp`. -/
theorem convertToJPG_unregistered_format_witness :
    (osOpen noFaults webpFS "root/anim.webp".toList = some (Handle.ofFile validWEBP) ∧
      sniff (registeredFormats sampleCodec) validWEBP = none) ∧
    ((convertToJPG sampleCodec noFaults webpFS "root/anim.webp".toList
        "converted".toList).err = some (ConvError.decoding DecodeError.unknownFormat) ∧
      (convertToJPG sampleCodec noFaults webpFS "root/anim.webp".toList
        "converted".toList).fs = webpFS ∧
      (convertToJPG sampleCodec noFaults webpFS "root/anim.webp".toList
        "converted".toList).calls = [Call.osOpen "root/anim.webp".toList, Call.imageDecode]) :=
  ⟨⟨by decide, rfl⟩,
    convertToJPG_unregistered_format sampleCodec noFaults webpFS "root/anim.webp".toList
      "converted".toList validWEBP (by decide) rfl⟩

/-- C6. When `convertToJPG` returns an error of the open, decode, format-check,
output-create or encode step, the input path exists afterwards exactly if it
existed before (an input file that was there is still there), and `os.Remove`
was not called on it; moreover, in any call, `os.Remove` is only called after
`jpeg.Encode` returned without error. -/
theorem convertToJPG_error_keeps_input (codec : Codec) (faults : Faults) (fs : FileSystem)
    (inputPath outputDir : List Char)
    (h : (convertToJPG codec faults fs inputPath outputDir).err = some ConvError.opening ∨
      (∃ e, (convertToJPG codec faults fs inputPath outputDir).err =
        some (ConvError.decoding e)) ∨
      (∃ format, (convertToJPG codec faults fs inputPath outputDir).err =
        some (ConvError.unsupportedFormat format)) ∨
      (convertToJPG codec faults fs inputPath outputDir).err =
        some ConvError.creatingOutput ∨
      (convertToJPG codec faults fs inputPath outputDir).err = some ConvError.encoding) :
    (convertToJPG codec faults fs inputPath outputDir).fs.pathExists inputPath =
        fs.pathExists inputPath ∧
      Call.osRemove inputPath ∉ (convertToJPG codec faults fs inputPath outputDir).calls ∧
      ∀ q, Call.osRemove q ∈ (convertToJPG codec faults fs inputPath outputDir).calls →
        Call.jpegEncode true ∈ (convertToJPG codec faults fs inputPath outputDir).calls := by
  have ho := convertToJPG_outcome codec faults fs inputPath outputDir
  generalize convertToJPG codec faults fs inputPath outputDir = r at h ho
  cases ho with
  | opening _ => simp
  | decoding _ _ _ _ => simp
  | unsupported _ _ _ _ _ _ => simp
  | creating _ _ _ _ _ _ _ => simp
  | encoding c img fmt fs1 fs2 h1 h2 h3 h4 h5 =>
    refine ⟨?_, by simp, by simp⟩
    obtain ⟨_, _, hl⟩ := osOpen_file faults fs inputPath c h1
    have e1 := osCreate_spec faults fs fs1 _ h4
    have hbefore : fs.pathExists inputPath = true := by simp [FileSystem.pathExists, hl]
    have h1' : (fs1.lookup inputPath).isSome = true := by
      rw [e1, FileSystem.set_lookup]
      split
      · rfl
      · simp [hl]
    have := jpegEncode_exists codec faults fs1 (outputPathOf inputPath outputDir) inputPath
      img 90 h1'
    rw [h5] at this
    show fs2.pathExists inputPath = _
    rw [hbefore]
    exact this
  | moving _ _ _ _ _ _ _ _ _ _ _ => simp at h
  | removing _ _ _ _ _ _ _ _ _ _ _ _ _ => simp at h
  | done _ _ _ _ _ _ _ _ _ _ _ _ _ _ => simp at h

/-- C6, an instance: the truncated `root/broken.png` fails to decode and stays. -/
theorem convertToJPG_error_keeps_input_witness :
    (convertToJPG sampleCodec noFaults photoFS "root/broken.png".toList
      "converted".toList).err = some (ConvError.decoding DecodeError.malformed) ∧
    ((convertToJPG sampleCodec noFaults photoFS "root/broken.png".toList
        "converted".toList).fs.pathExists "root/broken.png".toList =
        photoFS.pathExists "root/broken.png".toList ∧
      Call.osRemove "root/broken.png".toList ∉
        (convertToJPG sampleCodec noFaults photoFS "root/broken.png".toList
          "converted".toList).calls ∧
      ∀ q, Call.osRemove q ∈ (convertToJPG sampleCodec noFaults photoFS
          "root/broken.png".toList "converted".toList).calls →
        Call.jpegEncode true ∈ (convertToJPG sampleCodec noFaults photoFS
          "root/broken.png".toList "converted".toList).calls) :=
  ⟨by decide,
    convertToJPG_error_keeps_input sampleCodec noFaults photoFS "root/broken.png".toList
      "converted".toList (Or.inr (Or.inl ⟨DecodeError.malformed, by decide⟩))⟩

/-- C8, the claim fails: `root/png_backup.jpg` holds valid JPEG bytes; `main`
selects it, `convertToJPG` returns `nil`, the output `converted/png_backup.jpg` is
written and the file is deleted. -/
theorem png_backup_counterexample :
    stringsContains "root/png_backup.jpg".toList "png".toList = true ∧
    (convertToJPG sampleCodec noFaults backupFS "root/png_backup.jpg".toList
      "converted".toList).err = none ∧
    (convertToJPG sampleCodec noFaults backupFS "root/png_backup.jpg".toList
      "converted".toList).fs.lookup "converted/png_backup.jpg".toList =
        some (Node.file [0xFF, 0xD8, 90, 1, 1]) ∧
    (convertToJPG sampleCodec noFaults backupFS "root/png_backup.jpg".toList
      "converted".toList).fs.pathExists "root/png_backup.jpg".toList = false := by
  decide

/-- C8 (as amended). Take a collected file whose path contains "png" and whose
content `image.Decode` cannot decode (no registered format matches, or the decoder
rejects it), anywhere in the list of collected files.  If the loop of `main`
reaches it (the files before it did not end the loop), `main` selects it and
`convertToJPG` refuses it with the decode error, leaving the file system as it
was (no output artifact, the file not deleted), and the loop goes on with the
files after it. -/
theorem mainLoop_rejects_undecodable (codec : Codec) (faultsAt : Nat → Faults)
    (outputDir : List Char) (i : Nat) (fs : FileSystem) (before : List (List Char))
    (pre post : List Char) (rest : List (List Char)) (content : List Nat) (e : DecodeError)
    (hreach : Event.errorRemoving ∉ (mainLoop codec faultsAt outputDir i fs before).2)
    (hopen : osOpen (faultsAt (i + before.length))
      (mainLoop codec faultsAt outputDir i fs before).1 (pre ++ "png".toList ++ post) =
        some (Handle.ofFile content))
    (hdec : imageDecode codec (Handle.ofFile content) = Except.error e) :
    stringsContains (pre ++ "png".toList ++ post) "png".toList = true ∧
      convertToJPG codec (faultsAt (i + before.length))
          (mainLoop codec faultsAt outputDir i fs before).1
          (pre ++ "png".toList ++ post) outputDir =
        ⟨some (ConvError.decoding e), (mainLoop codec faultsAt outputDir i fs before).1,
          [Call.osOpen (pre ++ "png".toList ++ post), Call.imageDecode]⟩ ∧
      mainLoop codec faultsAt outputDir i fs
          (before ++ (pre ++ "png".toList ++ post) :: rest) =
        ((mainLoop codec faultsAt outputDir (i + before.length + 1)
            (mainLoop codec faultsAt outputDir i fs before).1 rest).1,
          (mainLoop codec faultsAt outputDir i fs before).2 ++
            Event.errorConverting (pre ++ "png".toList ++ post) (ConvError.decoding e) ::
              (mainLoop codec faultsAt outputDir (i + before.length + 1)
                (mainLoop codec faultsAt outputDir i fs before).1 rest).2) := by
  have hsel := stringsContains_of_infix pre "png".toList post
  have hconv := convertToJPG_decode_error codec (faultsAt (i + before.length))
    (mainLoop codec faultsAt outputDir i fs before).1 (pre ++ "png".toList ++ post)
    outputDir _ e hopen hdec
  refine ⟨hsel, hconv, ?_⟩
  rw [mainLoop_append codec faultsAt outputDir before i fs _ hreach]
  have hstep : mainLoop codec faultsAt outputDir (i + before.length)
      (mainLoop codec faultsAt outputDir i fs before).1
      ((pre ++ "png".toList ++ post) :: rest) =
      ((mainLoop codec faultsAt outputDir (i + before.length + 1)
          (mainLoop codec faultsAt outputDir i fs before).1 rest).1,
        Event.errorConverting (pre ++ "png".toList ++ post) (ConvError.decoding e) ::
          (mainLoop codec faultsAt outputDir (i + before.length + 1)
            (mainLoop codec faultsAt outputDir i fs before).1 rest).2) := by
    rw [mainLoop]
    simp only [hsel, if_true, hconv]
  rw [hstep]

/-- C8 (as amended), an instance: the batch `root/broken.png` (truncated),
`root/png_anim.gif` (a GIF), `root/photo.png` (valid).  The loop reaches the
GIF after the failed conversion of `broken.png`, refuses it, and goes on to
`photo.png`, which it converts. -/
theorem mainLoop_rejects_undecodable_witness :
    (Event.errorRemoving ∉ (mainLoop sampleCodec (fun _ => noFaults) "converted".toList 0
        pngNamedGifFS ["root/broken.png".toList]).2 ∧
      osOpen noFaults (mainLoop sampleCodec (fun _ => noFaults) "converted".toList 0
          pngNamedGifFS ["root/broken.png".toList]).1
          ("root/".toList ++ "png".toList ++ "_anim.gif".toList) =
        some (Handle.ofFile validGIF) ∧
      imageDecode sampleCodec (Handle.ofFile validGIF) =
        Except.error DecodeError.unknownFormat) ∧
    (mainLoop sampleCodec (fun _ => noFaults) "converted".toList 0 pngNamedGifFS
        (["root/broken.png".toList] ++
          ("root/".toList ++ "png".toList ++ "_anim.gif".toList) ::
            ["root/photo.png".toList])).2 =
      (mainLoop sampleCodec (fun _ => noFaults) "converted".toList 0 pngNamedGifFS
          ["root/broken.png".toList]).2 ++
        Event.errorConverting ("root/".toList ++ "png".toList ++ "_anim.gif".toList)
            (ConvError.decoding DecodeError.unknownFormat) ::
          (mainLoop sampleCodec (fun _ => noFaults) "converted".toList
            (0 + ["root/broken.png".toList].length + 1)
            (mainLoop sampleCodec (fun _ => noFaults) "converted".toList 0 pngNamedGifFS
              ["root/broken.png".toList]).1 ["root/photo.png".toList]).2 ∧
    (mainLoop sampleCodec (fun _ => noFaults) "converted".toList 0 pngNamedGifFS
        ["root/broken.png".toList, "root/png_anim.gif".toList, "root/photo.png".toList]).2 =
      [Event.errorConverting "root/broken.png".toList (ConvError.decoding DecodeError.malformed),
        Event.errorConverting "root/png_anim.gif".toList
          (ConvError.decoding DecodeError.unknownFormat),
        Event.converted "root/photo.png".toList, Event.errorRemoving] ∧
    (mainLoop sampleCodec (fun _ => noFaults) "converted".toList 0 pngNamedGifFS
        ["root/broken.png".toList, "root/png_anim.gif".toList, "root/photo.png".toList]).1.lookup
        "root/png_anim.gif".toList = some (Node.file validGIF) ∧
    (mainLoop sampleCodec (fun _ => noFaults) "converted".toList 0 pngNamedGifFS
        ["root/broken.png".toList, "root/png_anim.gif".toList, "root/photo.png".toList]).1.pathExists
        "converted/png_anim.jpg".toList = false :=
  ⟨⟨by decide, by decide, rfl⟩,
    congrArg Prod.snd
      (mainLoop_rejects_undecodable sampleCodec (fun _ => noFaults) "converted".toList 0
        pngNamedGifFS ["root/broken.png".toList] "root/".toList "_anim.gif".toList
        ["root/photo.png".toList] validGIF DecodeError.unknownFormat (by decide) (by decide)
        rfl).2.2,
    by decide, by decide, by decide⟩

/-- C9, the code at the failing inputs: whatever the codecs, a valid GIF, BMP or
TIFF file does not pass the decode step; `convertToJPG` returns the decode error
for an unknown format and writes no JPEG. -/
theorem convertToJPG_other_formats (codec : Codec) :
    (convertToJPG codec noFaults otherFormatsFS "root/anim.gif".toList
      "converted".toList).err = some (ConvError.decoding DecodeError.unknownFormat) ∧
    (convertToJPG codec noFaults otherFormatsFS "root/scan.bmp".toList
      "converted".toList).err = some (ConvError.decoding DecodeError.unknownFormat) ∧
    (convertToJPG codec noFaults otherFormatsFS "root/scan.tiff".toList
      "converted".toList).err = some (ConvError.decoding DecodeError.unknownFormat) ∧
    (convertToJPG codec noFaults otherFormatsFS "root/anim.gif".toList
      "converted".toList).fs.pathExists "converted/anim.jpg".toList = false ∧
    "gif".toList ∈ validFormats ∧ "bmp".toList ∈ validFormats ∧
    "tiff".toList ∈ validFormats ∧
    (registeredFormats codec).map RegisteredFormat.name = ["jpeg".toList, "png".toList] := by
  have hg : osOpen noFaults otherFormatsFS "root/anim.gif".toList =
      some (Handle.ofFile validGIF) := by decide
  have hb : osOpen noFaults otherFormatsFS "root/scan.bmp".toList =
      some (Handle.ofFile validBMP) := by decide
  have ht : osOpen noFaults otherFormatsFS "root/scan.tiff".toList =
      some (Handle.ofFile validTIFF) := by decide
  have sg : sniff (registeredFormats codec) validGIF = none := rfl
  have sb : sniff (registeredFormats codec) validBMP = none := rfl
  have st : sniff (registeredFormats codec) validTIFF = none := rfl
  rw [convertToJPG_decode_error codec noFaults _ _ _ _ _ hg (imageDecode_unknown codec _ sg),
    convertToJPG_decode_error codec noFaults _ _ _ _ _ hb (imageDecode_unknown codec _ sb),
    convertToJPG_decode_error codec noFaults _ _ _ _ _ ht (imageDecode_unknown codec _ st)]
  refine ⟨rfl, rfl, rfl, by decide, by decide, by decide, by decide, rfl⟩

/-- C1, the code at the failing input: the input directory holds a valid `a.png`
and a truncated `b.png`.  The run of `main` converts `a.png`, then fails to
remove it a second time and returns: `convertToJPG` is never invoked on `b.png`,
which is left as it was. -/
theorem main_aborts_after_first_success :
    (readImageFiles "./app/subidas/".toList batchTree).1 =
      ["app/subidas/a.png".toList, "app/subidas/b.png".toList] ∧
    (main batchEnv batchTree batchFS).2 =
      [Event.filesToCheck 2, Event.converted "app/subidas/a.png".toList,
        Event.errorRemoving] ∧
    convertedPaths (main batchEnv batchTree batchFS).2 = ["app/subidas/a.png".toList] ∧
    stringsContains "app/subidas/b.png".toList "png".toList = true ∧
    "app/subidas/b.png".toList ∉ convertedPaths (main batchEnv batchTree batchFS).2 ∧
    (main batchEnv batchTree batchFS).1.lookup "app/subidas/b.png".toList =
      some (Node.file truncatedPNG) := by
  decide

theorem imageDecode_format (codec : Codec) (h : Handle) (img : Image) (fmt : List Char)
    (hd : imageDecode codec h = Except.ok (img, fmt)) :
    fmt = "jpeg".toList ∨ fmt = "png".toList := by
  cases h with
  | ofDir => simp [imageDecode] at hd
  | ofFile content =>
    unfold imageDecode at hd
    cases hs : sniff (registeredFormats codec) content with
    | none => simp [hs] at hd
    | some f =>
      have hmem : f ∈ registeredFormats codec := List.mem_of_find?_eq_some hs
      simp only [hs] at hd
      cases hdec : f.decode content with
      | none => simp [hdec] at hd
      | some img' =>
        simp only [hdec, Except.ok.injEq, Prod.mk.injEq] at hd
        rw [← hd.2]
        simp only [registeredFormats, List.mem_cons, List.mem_singleton] at hmem
        rcases hmem with rfl | rfl | hmem
        · exact Or.inl rfl
        · exact Or.inr rfl
        · simp at hmem

/-- The `default` branch of the format switch (lines 121-122) is never taken:
`image.Decode` only reports the names of registered formats, `jpeg` and `png`,
and both are on the allowlist, so `convertToJPG` never returns the
unsupported-format error. -/
theorem convertToJPG_never_unsupported (codec : Codec) (faults : Faults) (fs : FileSystem)
    (inputPath outputDir format : List Char) :
    (convertToJPG codec faults fs inputPath outputDir).err ≠
      some (ConvError.unsupportedFormat format) := by
  have ho := convertToJPG_outcome codec faults fs inputPath outputDir
  generalize convertToJPG codec faults fs inputPath outputDir = r at ho
  cases ho with
  | opening _ => simp
  | decoding _ _ _ _ => simp
  | unsupported c img fmt h1 h2 h3 =>
    exfalso
    apply h3
    rcases imageDecode_format codec _ img fmt h2 with rfl | rfl
    · decide
    · decide
  | creating _ _ _ _ _ _ _ => simp
  | encoding _ _ _ _ _ _ _ _ _ _ => simp
  | moving _ _ _ _ _ _ _ _ _ _ _ => simp
  | removing _ _ _ _ _ _ _ _ _ _ _ _ _ => simp
  | done _ _ _ _ _ _ _ _ _ _ _ _ _ _ => simp

/-- An instance of `mainLoop_stops_after_success`: after converting
`root/photo.png` the loop returns without visiting `root/broken.png`. -/
theorem mainLoop_stops_after_success_witness :
    (stringsContains "root/photo.png".toList "png".toList = true ∧
      (convertToJPG sampleCodec noFaults photoFS "root/photo.png".toList
        "converted".toList).err = none) ∧
    mainLoop sampleCodec (fun _ => noFaults) "converted".toList 0 photoFS
        ["root/photo.png".toList, "root/broken.png".toList] =
      ((convertToJPG sampleCodec noFaults photoFS "root/photo.png".toList
          "converted".toList).fs,
        [Event.converted "root/photo.png".toList, Event.errorRemoving]) :=
  ⟨⟨by decide, by decide⟩,
    mainLoop_stops_after_success sampleCodec (fun _ => noFaults) "converted".toList 0 photoFS
      "root/photo.png".toList ["root/broken.png".toList] (by decide) (by decide)⟩

/-! ## `readImageFiles` -/

theorem mem_specImagePaths (vs : List Visit) (p : List Char) :
    p ∈ specImagePaths vs ↔
      ∃ v ∈ vs, v.path = p ∧ v.info.isDir = false ∧ SpecImageName v.info.name := by
  unfold specImagePaths
  simp only [List.mem_map, List.mem_filter, Bool.and_eq_true, Bool.not_eq_true',
    decide_eq_true_eq]
  constructor
  · rintro ⟨v, ⟨hv, h1, h2⟩, rfl⟩
    exact ⟨v, hv, rfl, h1, h2⟩
  · rintro ⟨v, hv, rfl, h1, h2⟩
    exact ⟨v, ⟨hv, h1, h2⟩, rfl⟩

mutual
theorem listing_inaccessible (path : List Char) :
    (e : Entry) → e.accessible = false → ∃ v ∈ e.listing path, v.err.isSome = true
  | Entry.file n, h => by simp [Entry.accessible] at h
  | Entry.dir n entries, h => by
    obtain ⟨v, hv, he⟩ := entriesListing_inaccessible path entries
      (by simpa [Entry.accessible] using h)
    exact ⟨v, by simp only [Entry.listing]; exact List.mem_cons_of_mem _ hv, he⟩
  | Entry.unreadableDir n err, _ =>
    ⟨⟨path, ⟨n, true⟩, some err⟩, by simp only [Entry.listing]; exact List.mem_singleton.mpr rfl, rfl⟩
  | Entry.inaccessible n err, _ =>
    ⟨⟨path, ⟨n, false⟩, some err⟩, by simp only [Entry.listing]; exact List.mem_singleton.mpr rfl, rfl⟩
theorem entriesListing_inaccessible (path : List Char) :
    (es : Entries) → es.accessible = false → ∃ v ∈ es.listing path, v.err.isSome = true
  | Entries.nil, h => by simp [Entries.accessible] at h
  | Entries.cons e rest, h => by
    simp only [Entries.accessible, Bool.and_eq_false_iff] at h
    rcases h with h | h
    · obtain ⟨v, hv, he⟩ := listing_inaccessible (Join [path, e.name]) e h
      exact ⟨v, by simp only [Entries.listing]; exact List.mem_append_left _ hv, he⟩
    · obtain ⟨v, hv, he⟩ := entriesListing_inaccessible path rest h
      exact ⟨v, by simp only [Entries.listing]; exact List.mem_append_right _ hv, he⟩
end

theorem split_at_first_failure (vs : List Visit) (h : ∃ v ∈ vs, v.err.isSome = true) :
    ∃ before v after e, vs = before ++ v :: after ∧ (∀ u ∈ before, u.err = none) ∧
      v.err = some e ∧ beforeFailure vs = before ∧ firstFailure vs = some e := by
  induction vs with
  | nil =>
    obtain ⟨v, hv, _⟩ := h
    simp at hv
  | cons w ws ih =>
    cases hw : w.err with
    | some e =>
      exact ⟨[], w, ws, e, rfl, by simp, hw, by simp [beforeFailure, hw],
        by simp [firstFailure, hw]⟩
    | none =>
      have h' : ∃ v ∈ ws, v.err.isSome = true := by
        obtain ⟨v, hv, he⟩ := h
        rcases List.mem_cons.mp hv with rfl | hv
        · simp [hw] at he
        · exact ⟨v, hv, he⟩
      obtain ⟨before, v, after, e, h1, h2, h3, h4, h5⟩ := ih h'
      refine ⟨w :: before, v, after, e, by simp [h1], ?_, h3, ?_, ?_⟩
      · intro u hu
        rcases List.mem_cons.mp hu with rfl | hu
        · exact hw
        · exact h2 u hu
      · unfold beforeFailure at h4 ⊢
        simp [hw, h4]
      · unfold firstFailure at h5 ⊢
        simp [hw, h5]

/-- C3. On a tree in which every entry is accessible, `readImageFiles` returns no
error and exactly the paths the specification asks for (`specImagePaths`): those
of the entries, at any depth, that are not directories and whose name,
lower-cased, ends with one of `.jpg, .jpeg, .png, .gif, .bmp, .tiff, .webp`.  A
path is in the result exactly if such an entry has it (so no directory and no
file with another suffix appears), and when the directories are well named
(file names, no name twice in a directory) no path appears twice. -/
theorem readImageFiles_exact (dir : List Char) (tree : Entry)
    (h : tree.accessible = true) :
    readImageFiles dir tree = (specImagePaths (tree.listing dir), none) ∧
    (∀ p, p ∈ (readImageFiles dir tree).1 ↔
      ∃ v ∈ tree.listing dir, v.path = p ∧ v.info.isDir = false ∧
        SpecImageName v.info.name) ∧
    (tree.wellNamed = true → (readImageFiles dir tree).1.Nodup) := by
  obtain ⟨h1, h2⟩ := beforeFailure_all _ (listing_accessible dir tree h)
  have heq : readImageFiles dir tree = (specImagePaths (tree.listing dir), none) := by
    rw [readImageFiles_spec, h1, h2]
  refine ⟨heq, ?_, ?_⟩
  · intro p
    rw [heq]
    exact mem_specImagePaths _ p
  · intro hw
    rw [heq]
    exact listing_specImagePaths_nodup dir tree hw

/-- C3, an instance: on the tree `root/{a.png, sub/b.jpg, sub/sub2/c.txt}`, with a
directory `sub/dir.png` and a file `sub/UP.JPEG` added, the specification's paths
are `root/a.png`, `root/sub/b.jpg` and `root/sub/UP.JPEG`, and `readImageFiles`
returns exactly these; on the tree of the specification itself it returns
exactly `root/a.png` and `root/sub/b.jpg`. -/
theorem readImageFiles_exact_witness :
    (sampleTree.accessible = true ∧ mixedTree.accessible = true) ∧
    specImagePaths (sampleTree.listing "root".toList) =
      ["root/a.png".toList, "root/sub/b.jpg".toList] ∧
    readImageFiles "root".toList sampleTree =
      (["root/a.png".toList, "root/sub/b.jpg".toList], none) ∧
    (readImageFiles "root".toList sampleTree).1.Nodup ∧
    specImagePaths (mixedTree.listing "root".toList) =
      ["root/a.png".toList, "root/sub/b.jpg".toList, "root/sub/UP.JPEG".toList] ∧
    readImageFiles "root".toList mixedTree =
      (["root/a.png".toList, "root/sub/b.jpg".toList, "root/sub/UP.JPEG".toList], none) ∧
    (isImageFile "UP.JPEG".toList = true ∧ isImageFile "dir.png".toList = true ∧
      isImageFile "notes.txt".toList = false ∧
      "root/sub/dir.png".toList ∉ (readImageFiles "root".toList mixedTree).1) :=
  ⟨⟨by decide, by decide⟩, by decide,
    (readImageFiles_exact "root".toList sampleTree (by decide)).1.trans
      (congrArg (fun l => (l, (none : Option Errno))) (by decide)),
    (readImageFiles_exact "root".toList sampleTree (by decide)).2.2 (by decide),
    by decide,
    (readImageFiles_exact "root".toList mixedTree (by decide)).1.trans
      (congrArg (fun l => (l, (none : Option Errno))) (by decide)),
    by decide⟩

/-- C4, the claim fails: in `root/{a.png, secret/}` with `secret` unreadable, the
list `readImageFiles` returns together with the error holds `root/a.png`,
collected before the failing entry. -/
theorem readImageFiles_partial_counterexample :
    (readImageFiles "root".toList deniedTree).2 = some 13 ∧
    "root/a.png".toList ∈ (readImageFiles "root".toList deniedTree).1 := by
  decide

/-- C4 (as amended). On a tree in which some entry cannot be accessed,
`readImageFiles` stops at the first such entry of the walk and returns its error
together with the image paths collected before it; `main` then prints the error
and returns without converting any file. -/
theorem readImageFiles_error (dir : List Char) (tree : Entry)
    (h : tree.accessible = false) :
    (∃ before v after e, tree.listing dir = before ++ v :: after ∧
      (∀ u ∈ before, u.err = none) ∧ v.err = some e ∧
      readImageFiles dir tree = (specImagePaths before, some e)) ∧
    ∀ (env : MainEnv) (fs : FileSystem),
      convertedPaths (main env tree fs).2 = [] ∧
      ((main env tree fs).2 = [Event.errorLoadingEnv] ∨
        (main env tree fs).2 = [Event.errorCreatingOutputDir] ∨
        ∃ e, (main env tree fs).2 = [Event.errorReadingFiles e]) := by
  constructor
  · obtain ⟨before, v, after, e, h1, h2, h3, h4, h5⟩ :=
      split_at_first_failure _ (listing_inaccessible dir tree h)
    exact ⟨before, v, after, e, h1, h2, h3, by rw [readImageFiles_spec, h4, h5]⟩
  · intro env fs
    obtain ⟨before, v, after, e, h1, h2, h3, h4, h5⟩ :=
      split_at_first_failure _
        (listing_inaccessible ("./".toList ++ env.appFolder ++ "/subidas/".toList) tree h)
    have hr := readImageFiles_spec ("./".toList ++ env.appFolder ++ "/subidas/".toList) tree
    rw [h4, h5] at hr
    by_cases hl : env.envLoadFails = true
    · have : main env tree fs = (fs, [Event.errorLoadingEnv]) := by
        simp only [main, hl, if_true]
      rw [this]
      exact ⟨rfl, Or.inl rfl⟩
    · cases hm : osMkdirAll env.mkdirFails fs "./converted".toList with
      | none =>
        have : main env tree fs = (fs, [Event.errorCreatingOutputDir]) := by
          simp only [main, hl, hm, Bool.false_eq_true, if_false]
        rw [this]
        exact ⟨rfl, Or.inr (Or.inl rfl)⟩
      | some fs1 =>
        have : main env tree fs = (fs1, [Event.errorReadingFiles e]) := by
          simp only [main, hl, hm, hr, Bool.false_eq_true, if_false]
        rw [this]
        exact ⟨rfl, Or.inr (Or.inr ⟨e, rfl⟩)⟩

/-- C4 (as amended), an instance: the tree `root/{a.png, secret/}` with `secret`
unreadable. -/
theorem readImageFiles_error_witness :
    deniedTree.accessible = false ∧
    ((∃ before v after e, deniedTree.listing "root".toList = before ++ v :: after ∧
        (∀ u ∈ before, u.err = none) ∧ v.err = some e ∧
        readImageFiles "root".toList deniedTree = (specImagePaths before, some e)) ∧
      ∀ (env : MainEnv) (fs : FileSystem),
        convertedPaths (main env deniedTree fs).2 = [] ∧
        ((main env deniedTree fs).2 = [Event.errorLoadingEnv] ∨
          (main env deniedTree fs).2 = [Event.errorCreatingOutputDir] ∨
          ∃ e, (main env deniedTree fs).2 = [Event.errorReadingFiles e])) :=
  ⟨by decide, readImageFiles_error "root".toList deniedTree (by decide)⟩

/-! ## `downloadImagesFromCloudinary` -/

theorem assetFile_numbered_inj (folder : List Char) (i j : Nat)
    (h : assetFile folder (numberedAsset i) = assetFile folder (numberedAsset j)) : i = j := by
  have := congrArg List.length h
  simp [assetFile, numberedAsset] at this
  exact this

theorem downloadPage_fresh (folder : List Char) (len : Nat) :
    ∀ (start : Nat) (st : DownloadState), KnownBelow folder start st →
      ∃ st', downloadPage folder ((List.range' start len).map numberedAsset) st = (st', true) ∧
        st'.counter = st.counter + len ∧ KnownBelow folder (start + len) st' := by
  induction len with
  | zero =>
    intro start st h
    exact ⟨st, rfl, rfl, h⟩
  | succ len ih =>
    intro start st h
    have hnew : assetFile folder (numberedAsset start) ∉ st.existing := by
      intro hmem
      obtain ⟨j, hj, hf⟩ := h _ hmem
      have := assetFile_numbered_inj folder start j hf
      omega
    have hinv : KnownBelow folder (start + 1)
        { counter := st.counter + 1, init := st.init,
          existing := assetFile folder (numberedAsset start) :: st.existing,
          downloaded := st.downloaded ++ [assetFile folder (numberedAsset start)] } := by
      intro f hf
      rcases List.mem_cons.mp hf with rfl | hf
      · exact ⟨start, by omega, rfl⟩
      · obtain ⟨j, hj, hfj⟩ := h f hf
        exact ⟨j, by omega, hfj⟩
    obtain ⟨st', h1, h2, h3⟩ := ih (start + 1) _ hinv
    refine ⟨st', ?_, by rw [h2]; simp only []; omega, by
      have : start + 1 + len = start + (len + 1) := by omega
      rw [← this]; exact h3⟩
    rw [List.range'_succ, List.map_cons, downloadPage]
    simp only [hnew, if_false]
    have hflags : (numberedAsset start).getFails = false ∧
        (numberedAsset start).createFails = false ∧
        (numberedAsset start).copyFails = false := ⟨rfl, rfl, rfl⟩
    simp only [hflags.1, hflags.2.1, hflags.2.2, Bool.false_eq_true, if_false]
    exact h1

theorem downloadLoop_fresh (folder : List Char) (p : Nat) :
    ∀ (start : Nat) (st : DownloadState), KnownBelow folder start st →
      (p ≠ 0 → st.counter + 5 * (p - 1) < 200) →
      (downloadLoop folder (pagesFrom start p) st).counter = st.counter + 5 * p := by
  induction p with
  | zero =>
    intro start st _ _
    rfl
  | succ p ih =>
    intro start st h hcap
    have hlt : ¬ st.counter ≥ 200 := by
      have := hcap (by omega)
      omega
    obtain ⟨st', h1, h2, h3⟩ := downloadPage_fresh folder 5 start st h
    have hstep : downloadLoop folder (pagesFrom start (p + 1)) st =
        downloadLoop folder (pagesFrom (start + 5) p) { st' with init := [] } := by
      rw [pagesFrom, downloadLoop]
      simp only [Bool.not_true, Bool.false_or, decide_eq_true_eq, hlt, if_false]
      show (match downloadPage folder ((List.range' start 5).map numberedAsset) st with
        | (st1, false) => st1
        | (st1, true) =>
          downloadLoop folder (pagesFrom (start + 5) p) { st1 with init := [] }) = _
      rw [h1]
    have hnext := ih (start + 5) { st' with init := [] } (fun f hf => h3 f hf) (by
      intro hp
      have := hcap (by omega)
      show st'.counter + 5 * (p - 1) < 200
      omega)
    rw [hstep, hnext]
    show st'.counter + 5 * p = _
    omega

theorem pagesFrom_length (p : Nat) :
    ∀ start, ∀ resp ∈ pagesFrom start p, ∃ page, resp = some page ∧ page.assets.length = 5 := by
  induction p with
  | zero =>
    intro start resp h
    simp [pagesFrom] at h
  | succ p ih =>
    intro start resp h
    rw [pagesFrom] at h
    rcases List.mem_cons.mp h with rfl | h
    · exact ⟨numberedPage start, rfl, by simp [numberedPage]⟩
    · exact ih (start + 5) resp h

/-- C10, the claim fails: the store answers forty-one pages of five assets each
and only the file of the first asset exists locally.  The first page downloads
four assets, so the counter is 199 after forty pages; the next page is requested
and downloaded whole: the counter ends at 204, above 200. -/
theorem download_overshoots_cap :
    (∀ resp ∈ overshootResponses, ∃ page, resp = some page ∧ page.assets.length = 5) ∧
    (downloadImagesFromCloudinary false "imgs".toList overshootResponses
      overshootExisting).counter = 204 ∧
    200 < (downloadImagesFromCloudinary false "imgs".toList overshootResponses
      overshootExisting).counter := by
  have hcount : (downloadImagesFromCloudinary false "imgs".toList overshootResponses
      overshootExisting).counter = 204 := by
    have h0 : KnownBelow "imgs".toList 1 ⟨0, [], overshootExisting, []⟩ := by
      intro f hf
      exact ⟨0, by omega, List.mem_singleton.mp hf⟩
    obtain ⟨st', h1, h2, h3⟩ := downloadPage_fresh "imgs".toList 4 1 _ h0
    have hfirst : downloadPage "imgs".toList (numberedPage 0).assets
        ⟨0, [], overshootExisting, []⟩ = (st', true) := by
      have : (numberedPage 0).assets =
          numberedAsset 0 :: (List.range' 1 4).map numberedAsset := rfl
      rw [this, downloadPage]
      have hmem : assetFile "imgs".toList (numberedAsset 0) ∈
          (⟨0, [], overshootExisting, []⟩ : DownloadState).existing :=
        List.mem_singleton.mpr rfl
      simp only [hmem, if_true]
      exact h1
    have hstep : downloadImagesFromCloudinary false "imgs".toList overshootResponses
        overshootExisting = downloadLoop "imgs".toList (pagesFrom 5 40) { st' with init := [] } := by
      have hp : overshootResponses = some (numberedPage 0) :: pagesFrom 5 40 := rfl
      rw [downloadImagesFromCloudinary, hp]
      simp only [Bool.false_eq_true, if_false]
      rw [downloadLoop]
      simp only [Bool.not_true, Bool.false_or, decide_eq_true_eq, ge_iff_le]
      rw [if_neg (by omega), hfirst]
      rfl
    have h2' : st'.counter = 4 := h2
    have hnext := downloadLoop_fresh "imgs".toList 40 5 { st' with init := [] }
      (fun f hf => h3 f hf) (by
        intro _
        show st'.counter + 5 * (40 - 1) < 200
        omega)
    rw [hstep, hnext]
    show st'.counter + 5 * 40 = 204
    omega
  exact ⟨pagesFrom_length 41 0, hcount, by rw [hcount]; omega⟩

theorem downloadPage_counter (folder : List Char) (assets : List Asset) :
    ∀ st : DownloadState,
      (downloadPage folder assets st).1.counter ≤ st.counter + assets.length := by
  induction assets with
  | nil =>
    intro st
    simp [downloadPage]
  | cons a rest ih =>
    intro st
    rw [downloadPage]
    simp only [List.length_cons]
    split
    · have := ih st
      omega
    · split
      · simp only []
        omega
      · split
        · simp only []
          omega
        · split
          · simp only []
            omega
          · have := ih
              { counter := st.counter + 1, init := st.init,
                existing := assetFile folder a :: st.existing,
                downloaded := st.downloaded ++ [assetFile folder a] }
            simp only [] at this
            omega

theorem downloadLoop_bound (folder : List Char) (responses : List (Option Page)) :
    ∀ st : DownloadState,
      (∀ resp ∈ responses, ∀ page, resp = some page → page.assets.length ≤ 5) →
      st.counter ≤ 204 → (downloadLoop folder responses st).counter ≤ 204 := by
  induction responses with
  | nil =>
    intro st _ h
    exact h
  | cons resp rest ih =>
    intro st hp h
    cases resp with
    | none =>
      rw [downloadLoop]
      simp only [Bool.not_true, Bool.false_or, decide_eq_true_eq]
      split <;> exact h
    | some page =>
      rw [downloadLoop]
      simp only [Bool.not_true, Bool.false_or, decide_eq_true_eq]
      split
      · exact h
      · rename_i hlt
        have hlen := hp (some page) (List.mem_cons_self _ _) page rfl
        have hc := downloadPage_counter folder page.assets st
        cases hd : downloadPage folder page.assets st with
        | mk st1 ok =>
          rw [hd] at hc
          simp only [] at hc
          cases ok with
          | false =>
            show st1.counter ≤ 204
            omega
          | true =>
            exact ih { st1 with init := page.nextCursor }
              (fun r hr pg hpg => hp r (List.mem_cons_of_mem _ hr) pg hpg)
              (by show st1.counter ≤ 204; omega)

theorem downloadPage_inv (folder : List Char) (initial : List (List Char))
    (assets : List Asset) :
    ∀ st : DownloadState, DownloadInv initial st →
      DownloadInv initial (downloadPage folder assets st).1 := by
  induction assets with
  | nil =>
    intro st h
    exact h
  | cons a rest ih =>
    intro st h
    rw [downloadPage]
    split
    · exact ih st h
    · rename_i hnew
      split
      · exact h
      · split
        · exact h
        · split
          · exact ⟨h.1, fun f hf => List.mem_cons_of_mem _ (h.2.1 f hf), h.2.2⟩
          · apply ih
            refine ⟨?_, fun f hf => List.mem_cons_of_mem _ (h.2.1 f hf), ?_⟩
            · show st.counter + 1 = (st.downloaded ++ [assetFile folder a]).length
              rw [List.length_append, h.1]
              rfl
            · intro f hf
              rcases List.mem_append.mp hf with hf | hf
              · exact h.2.2 f hf
              · rw [List.mem_singleton.mp hf]
                exact fun hin => hnew (h.2.1 _ hin)

theorem downloadLoop_inv (folder : List Char) (initial : List (List Char))
    (responses : List (Option Page)) :
    ∀ st : DownloadState, DownloadInv initial st →
      DownloadInv initial (downloadLoop folder responses st) := by
  induction responses with
  | nil =>
    intro st h
    exact h
  | cons resp rest ih =>
    intro st h
    cases resp with
    | none =>
      rw [downloadLoop]
      simp only [Bool.not_true, Bool.false_or, decide_eq_true_eq]
      split <;> exact h
    | some page =>
      rw [downloadLoop]
      simp only [Bool.not_true, Bool.false_or, decide_eq_true_eq]
      split
      · exact h
      · have hp := downloadPage_inv folder initial page.assets st h
        cases hd : downloadPage folder page.assets st with
        | mk st1 ok =>
          rw [hd] at hp
          cases ok with
          | false => exact hp
          | true => exact ih { st1 with init := page.nextCursor } hp

theorem downloadPage_skip (folder : List Char) (a : Asset) (rest : List Asset)
    (st : DownloadState) (h : assetFile folder a ∈ st.existing) :
    downloadPage folder (a :: rest) st = downloadPage folder rest st := by
  rw [downloadPage]
  simp only [h, if_true]

theorem downloadLoop_capped (folder : List Char) (responses : List (Option Page))
    (st : DownloadState) (h : 200 ≤ st.counter) : downloadLoop folder responses st = st := by
  cases responses with
  | nil => rfl
  | cons resp rest =>
    cases resp with
    | none =>
      rw [downloadLoop]
      simp only [Bool.not_true, Bool.false_or, decide_eq_true_eq, ge_iff_le, h, if_true]
    | some page =>
      rw [downloadLoop]
      simp only [Bool.not_true, Bool.false_or, decide_eq_true_eq, ge_iff_le, h, if_true]

/-- C10 (as amended). For every sequence of page responses in which each page
holds at most 5 assets and every set of local files, the counter of one call of
`downloadImagesFromCloudinary` never exceeds 204: it is compared with 200 before
a page is requested only, and once it has reached 200 the loop ends.  The
counter is the number of files downloaded, no file that existed at the start is
among them, and an asset whose local file exists is skipped with the state, the
counter included, unchanged. -/
theorem download_cap (configFails : Bool) (folder : List Char)
    (responses : List (Option Page)) (existing : List (List Char))
    (h : ∀ resp ∈ responses, ∀ page, resp = some page → page.assets.length ≤ 5) :
    (downloadImagesFromCloudinary configFails folder responses existing).counter ≤ 204 ∧
    (downloadImagesFromCloudinary configFails folder responses existing).counter =
      (downloadImagesFromCloudinary configFails folder responses existing).downloaded.length ∧
    (∀ f ∈ (downloadImagesFromCloudinary configFails folder responses existing).downloaded,
      f ∉ existing) ∧
    (∀ (a : Asset) (rest : List Asset) (st : DownloadState),
      assetFile folder a ∈ st.existing →
        downloadPage folder (a :: rest) st = downloadPage folder rest st) ∧
    (∀ (more : List (Option Page)) (st : DownloadState), 200 ≤ st.counter →
      downloadLoop folder more st = st) := by
  have hinv0 : DownloadInv existing ⟨0, [], existing, []⟩ :=
    ⟨rfl, fun f hf => hf, fun f hf => by simp at hf⟩
  have hinv : DownloadInv existing
      (downloadImagesFromCloudinary configFails folder responses existing) := by
    unfold downloadImagesFromCloudinary
    split
    · exact hinv0
    · exact downloadLoop_inv folder existing responses _ hinv0
  have hcap : (downloadImagesFromCloudinary configFails folder responses existing).counter
      ≤ 204 := by
    unfold downloadImagesFromCloudinary
    split
    · show 0 ≤ 204
      omega
    · exact downloadLoop_bound folder responses _ h (by show 0 ≤ 204; omega)
  exact ⟨hcap, hinv.1, hinv.2.2, downloadPage_skip folder, downloadLoop_capped folder⟩

/-- C10 (as amended), an instance: two pages of five assets, the file of the first
asset existing; nine assets are downloaded and counted. -/
theorem download_cap_witness :
    (∀ resp ∈ pagesFrom 0 2, ∀ page, resp = some page → page.assets.length ≤ 5) ∧
    (downloadImagesFromCloudinary false "imgs".toList (pagesFrom 0 2)
      overshootExisting).counter ≤ 204 ∧
    (downloadImagesFromCloudinary false "imgs".toList (pagesFrom 0 2)
      overshootExisting).counter = 9 ∧
    (downloadImagesFromCloudinary false "imgs".toList (pagesFrom 0 2)
      overshootExisting).downloaded.length = 9 ∧
    assetFile "imgs".toList (numberedAsset 0) ∉
      (downloadImagesFromCloudinary false "imgs".toList (pagesFrom 0 2)
        overshootExisting).downloaded :=
  ⟨by decide,
    (download_cap false "imgs".toList (pagesFrom 0 2) overshootExisting (by decide)).1,
    by decide, by decide, by decide⟩

end ExportCloudinary
